import Mathlib

/-!
Verification development for the nntp-indexer repository.

The Python sources under nntp_lib/ and scripts/ are embedded shallowly:
pure functions become Lean functions, Python values that may hold several
runtime types become the `PyVal` type, operations that may raise become
Option-valued functions (`none` models a raised exception), and external
collaborators (the NNTP server, the RFC-5322 date parser of the standard
library, the SQLite store) are modelled by explicit parameters or small
state types, as described at each definition.
-/

/-! ## Python value model -/

/-- Model of a Python runtime value as it appears in overview dictionaries:
a string, an integer, or None.  Other value types do not occur in the
embedded fragments. -/
inductive PyVal where
  | str (s : String)
  | int (n : Int)
  | pynone
deriving DecidableEq

/-- Python truthiness for the modelled values: empty string, zero and None
are falsy, everything else is truthy. -/
def PyVal.truthy : PyVal → Bool
  | .str s => s != ""
  | .int n => n != 0
  | .pynone => false

/-- Model of the Python expression `v or d` applied to a value that may be
absent (`none` models the name being bound to Python None by a lookup that
returned no value): the default is used when the value is absent or falsy. -/
def pyOr (v : Option PyVal) (d : PyVal) : PyVal :=
  match v with
  | some x => if x.truthy then x else d
  | none => d

/-- Whitespace characters stripped by Python int() and str.strip
(the ASCII whitespace set; the model does not cover the rarer Unicode
whitespace code points). -/
def pySpace (c : Char) : Bool :=
  c == ' ' || c == '\t' || c == '\n' || c == '\r' || c == '\x0b' || c == '\x0c'

/-- Numeric value of a list of decimal digits (most significant first). -/
def digitsToNat (acc : Nat) : List Char → Nat
  | [] => acc
  | c :: cs => digitsToNat (acc * 10 + (c.toNat - '0'.toNat)) cs

/-- Model of Python `int(s)` on a string: surrounding whitespace is
stripped, an optional sign is accepted, and the remainder must be a
nonempty run of decimal digits; any other string raises ValueError,
modelled as `none`.  (Python additionally accepts non-ASCII decimal digits
and internal underscores; the repository only meets ASCII numerals.) -/
def pyIntOfString (s : String) : Option Int :=
  let cs := (((s.toList.dropWhile pySpace).reverse.dropWhile pySpace).reverse)
  match cs with
  | '+' :: ds => if ds ≠ [] ∧ ds.all Char.isDigit then some (digitsToNat 0 ds) else none
  | '-' :: ds => if ds ≠ [] ∧ ds.all Char.isDigit then some (-(digitsToNat 0 ds : Int)) else none
  | ds => if ds ≠ [] ∧ ds.all Char.isDigit then some (digitsToNat 0 ds) else none

/-- Model of Python `int(v)` on a runtime value: integers pass through,
strings are parsed by `pyIntOfString`, and None raises TypeError
(modelled as `none`). -/
def pyToInt : PyVal → Option Int
  | .int n => some n
  | .str s => pyIntOfString s
  | .pynone => none

/-- Stable insertion of one element into a sorted list: the new element
goes after every strictly smaller element and before the first element
not strictly smaller, so elements comparing equal keep their original
relative order. -/
def pyInsert (le : α → α → Bool) (x : α) : List α → List α
  | [] => [x]
  | y :: t => if le y x && !le x y then y :: pyInsert le x t else x :: y :: t

/-- Model of Python's list.sort(key=...): a stable ascending sort. -/
def pySort (le : α → α → Bool) : List α → List α
  | [] => []
  | x :: t => pyInsert le x (pySort le t)

/-! ## nntp_lib/utils.py -/

/-- clean_text from utils.py re-encodes a string as UTF-8 discarding
invalid sequences.  Lean strings hold only valid Unicode scalar values,
so on the modelled strings the function is the identity. -/
def clean_text (s : String) : String := s

/-- to_iso from utils.py.  The RFC-5322 date parsing pipeline
(parsedate_to_datetime / astimezone / isoformat of the Python standard
library) is abstracted as the `parse` parameter, with `none` meaning the
parse raised.  to_iso returns None for an absent or falsy input, the
parsed ISO string on success, and None when parsing fails (the
try/except swallows every exception, including the TypeError raised on a
non-string input). -/
def to_iso (parse : String → Option String) (v : Option PyVal) : Option String :=
  match v with
  | none => none
  | some x =>
    if x.truthy then
      match x with
      | .str s => parse s
      | _ => none
    else none

/-! ## nntp_lib/fetch.py: field normalizer -/

/-- Raw overview dictionary: an insertion-ordered association list of
key/value pairs, as produced by nntplib for one article. -/
abbrev RawOv := List (String × PyVal)

/-- get_field inside row_from_overview: look the canonical field name up
in the pre-built key map, require the mapped key to be truthy (nonempty)
and present in the overview dictionary, and sanitize string values with
clean_text.  `none` models Python None. -/
def getField (ov : RawOv) (key_map : List (String × String)) (fieldName : String) : Option PyVal :=
  match key_map.lookup fieldName with
  | some k =>
    if k ≠ "" then
      match ov.lookup k with
      | some v =>
        some (match v with
              | .str s => .str (clean_text s)
              | w => w)
      | none => none
    else none
  | none => none

/-- Canonical normalized record produced by row_from_overview
(the NormalizedRecord of the spec). -/
structure FetchRow where
  message_id : Option PyVal
  group_name : String
  artnum : Int
  subject : PyVal
  from_addr : PyVal
  date_utc : Option String
  refs : Option PyVal
  bytes : Int
  lines : Int
  xref : Option PyVal
deriving DecidableEq

/-- row_from_overview from fetch.py.  The result is `none` when the
function raises: the only raising operations in the body are the two
`int(get_field(...) or 0)` coercions for bytes and lines (ValueError on a
truthy non-numeric string, TypeError on a truthy non-string non-int);
every other field degrades to None / a default instead. -/
def row_from_overview (group : String) (artnum : Int) (ov : RawOv)
    (key_map : List (String × String)) (parse : String → Option String) : Option FetchRow :=
  match pyToInt (pyOr (getField ov key_map "bytes") (.int 0)),
        pyToInt (pyOr (getField ov key_map "lines") (.int 0)) with
  | some b, some l =>
    some { message_id := getField ov key_map "message-id"
           group_name := group
           artnum := artnum
           subject := pyOr (getField ov key_map "subject") (.str "")
           from_addr := pyOr (getField ov key_map "from") (.str "")
           date_utc := to_iso parse (getField ov key_map "date")
           refs := getField ov key_map "references"
           bytes := b
           lines := l
           xref := getField ov key_map "xref" }
  | _, _ => none

/-! ## nntp_lib/fetch.py: chunked parallel fetcher -/

/-- Model of the Python substring test `needle in hay` on lists of
characters. -/
def listContainsSub : List Char → List Char → Bool
  | n, [] => n.isEmpty
  | n, c :: t => n.isPrefixOf (c :: t) || listContainsSub n t

/-- Python `needle in hay` on strings. -/
def pyInStr (needle hay : String) : Bool := listContainsSub needle.toList hay.toList

/-- Python str.lower() over the ASCII range (the embedded fragments only
lowercase ASCII header names and subjects). -/
def pyLower (s : String) : String := String.mk (s.toList.map Char.toLower)

/-- The fixed list of canonical overview field names from
fetch_rows_xover. -/
def overview_field_names : List String :=
  ["message-id", "subject", "from", "date", "references", "bytes", "lines", "xref"]

/-- Key-map construction from fetch_rows_xover: for each canonical field
name, the first key of the first overview whose lowercased form contains
the lowercased field name is recorded; fields with no matching key are
absent from the map.  Only the key list of the first overview is
consulted. -/
def buildKeyMap (keys : List String) : List (String × String) :=
  overview_field_names.foldl (fun km fn =>
    match keys.find? (fun k => pyInStr (pyLower fn) (pyLower k)) with
    | some k => km ++ [(fn, k)]
    | none => km) []

/-- Model of the remote NNTP group as seen through one connection: the
select-group reply carries (count, first, last), and the bulk-overview
operation returns, for each article number, either one raw field map or
nothing (gaps allowed), per the remote repository protocol. -/
structure Remote where
  count : Nat
  first : Nat
  last : Nat
  ov : Nat → Option RawOv

/-- Model of nntp_client.xover(s, e): the overview pairs for the article
numbers of [s, e] that exist on the server, in ascending order. -/
def xover (r : Remote) (s e : Nat) : List (Nat × RawOv) :=
  (List.range' s (e + 1 - s)).filterMap (fun i => (r.ov i).map (fun o => (i, o)))

/-- fetch_rows_xover from fetch.py: fetch one range, build the key map
once from the first overview of the reply, then normalize every overview
with it.  `none` models an exception escaping the function (a
row_from_overview coercion failure aborts the whole range). -/
def fetch_rows_xover (parse : String → Option String) (r : Remote) (group : String)
    (s e : Nat) : Option (List FetchRow) :=
  match xover r s e with
  | [] => some []
  | (a0, ov0) :: rest =>
    let key_map := buildKeyMap (ov0.map Prod.fst)
    ((a0, ov0) :: rest).mapM (fun p => row_from_overview group (p.1 : Int) p.2 key_map parse)

/-- Models `temp_client.group(group)[1:3]` in fetch_headers_chunked.
nntplib's group() returns the 5-tuple (response, count, first, last,
name), so the slice [1:3] is (count, first): the variable named nntp_max
receives the article count of the group, not its last article number,
and nntp_min receives the first article number. -/
def groupInfoSlice (r : Remote) : Nat × Nat := (r.count, r.first)

/-- The bound-defaulting lines of fetch_headers_chunked:
`local_min = back_filled_up_to or nntp_min` and
`local_max = start or nntp_max`.  On ints, Python `or` keeps the left
operand exactly when it is nonzero.  Returns (local_min, local_max). -/
def resolveBounds (start back_filled_up_to nntp_max nntp_min : Nat) : Nat × Nat :=
  ((if back_filled_up_to != 0 then back_filled_up_to else nntp_min),
   (if start != 0 then start else nntp_max))

/-- The `want` computation of fetch_headers_chunked: limit <= 0 means the
whole range, otherwise at most `limit` articles. -/
def wantCount (limit : Int) (total : Nat) : Nat :=
  if limit ≤ 0 then total else min limit.toNat total

/-- The chunk-building while loop of fetch_headers_chunked.  The loop
state is `current`; each pass emits (chunk_start, chunk_end) with the
chunk clipped to local_max and to the remaining allowance of `want`.
The Python loop does not terminate when chunk_size < 1; the fuel
parameter makes the model total, and local_max + 1 - local_min fuel is
enough whenever chunk_size ≥ 1. -/
def buildChunks : Nat → Nat → Nat → Nat → Nat → Nat → List (Nat × Nat)
  | 0, _, _, _, _, _ => []
  | fuel + 1, current, local_min, local_max, want, chunk_size =>
    if current ≤ local_max ∧ current - local_min < want then
      let chunk_end0 := min local_max (current + chunk_size - 1)
      let remaining := want - (current - local_min)
      let chunk_end := if chunk_end0 - current + 1 > remaining then current + remaining - 1 else chunk_end0
      (current, chunk_end) :: buildChunks fuel (chunk_end + 1) local_min local_max want chunk_size
    else []

/-- Comparison key of the final sort of fetch_headers_chunked
(`key=lambda x: x['artnum']`). -/
def artnumLe (a b : FetchRow) : Bool := a.artnum ≤ b.artnum

/-- The collection-and-merge step of fetch_headers_chunked: the chunk
results arrive in the order the parallel futures complete (`order` lists
the sub-ranges in completion order); a chunk whose fetch raised (`none`)
is logged and dropped; the surviving rows are concatenated in completion
order and finally sorted ascending by article number. -/
def runChunksInOrder (parse : String → Option String) (r : Remote) (group : String)
    (order : List (Nat × Nat)) : List FetchRow :=
  pySort artnumLe (((order.map (fun c => fetch_rows_xover parse r group c.1 c.2)).filterMap id).flatten)

/-- fetch_headers_chunked from fetch.py, with the sub-ranges processed in
submission order.  When local_min > local_max the Python expression
`local_max - local_min + 1` is negative and no chunk is built; the
truncated Nat subtraction used here yields the same empty chunk list. -/
def fetch_headers_chunked (parse : String → Option String) (r : Remote) (group : String)
    (start back_filled_up_to : Nat) (limit : Int) (chunk_size : Nat) : List FetchRow :=
  let nm := groupInfoSlice r
  let lm := resolveBounds start back_filled_up_to nm.1 nm.2
  let local_min := lm.1
  let local_max := lm.2
  let want := wantCount limit (local_max - local_min + 1)
  runChunksInOrder parse r group
    (buildChunks (local_max + 1 - local_min) local_min local_min local_max want chunk_size)

/-! ## nntp_lib/db.py -/

/-- The per-row copy with `b["group_name"] = group` in upsert_headers. -/
def setGroupName (g : String) (r : FetchRow) : FetchRow := { r with group_name := g }

/-- Whether the store already holds a row with this message_id. -/
def hasMessageId (db : List FetchRow) (mid : Option PyVal) : Bool :=
  db.any (fun x => x.message_id == mid)

/-- One INSERT OR IGNORE into the articles table, whose primary key is
message_id: the incoming row is appended unless a row with the same
message_id is already stored, in which case it is silently ignored.
The SQLite store itself is an external collaborator; the model treats
the key as a plain value (SQLite's special treatment of NULL keys in a
non-INTEGER primary key is outside the embedded fragment). -/
def insertOrIgnore (db : List FetchRow) (r : FetchRow) : List FetchRow :=
  if hasMessageId db r.message_id then db else db ++ [r]

/-- upsert_headers from db.py: every row is rebound to the target group
name and inserted with INSERT OR IGNORE, in list order. -/
def upsert_headers (db : List FetchRow) (group : String) (rows : List FetchRow) : List FetchRow :=
  rows.foldl (fun d r => insertOrIgnore d (setGroupName group r)) db

/-! ## nntp_lib/nzb.py: part-counter scanners

The regular expressions of nzb.py are embedded as explicit left-to-right
scanners over character lists.  `matchBracketAt` models one anchored
attempt of the pattern [(\[\x7b](\d+)/(\d+)[)\]\x7d] (greedy \d+ runs need
no backtracking here because a digit can never match '/', a closing
bracket, or a word boundary), `searchBracket` models re.search (first
matching position) and `finditerBracket` models re.finditer
(non-overlapping matches, continuing after each match).  The scanners are
parameterized by the closing-bracket test so that the claim-side variant
requiring paired brackets can reuse the same machinery.  \d, \s, \w and
the case folding are modelled over their ASCII ranges; the repository's
subjects and the claims only exercise that range. -/

/-- Opening-bracket character class [(\[\x7b]. -/
def isOpenBr (c : Char) : Bool := c == '(' || c == '[' || c == '\x7b'

/-- Closing-bracket character class [)\]\x7d]. -/
def isCloseBr (c : Char) : Bool := c == ')' || c == ']' || c == '\x7d'

/-- The source pattern accepts any closing bracket after any opening
bracket (the two character classes are independent). -/
def anyBracketPair (_o c : Char) : Bool := isCloseBr c

/-- Claim-side variant: the closing bracket must pair with the opening
one. -/
def strictBracketPair (o c : Char) : Bool :=
  (o == '(' && c == ')') || (o == '[' && c == ']') || (o == '\x7b' && c == '\x7d')

/-- One anchored attempt of the bracket pattern at the head of the list:
an opening bracket, a nonempty digit run, '/', a nonempty digit run, and
a closing bracket accepted by `pair`.  Returns the two captured numbers
and the remainder after the match. -/
def matchBracketAt (pair : Char → Char → Bool) : List Char → Option (Nat × Nat × List Char)
  | [] => none
  | o :: rest =>
    if isOpenBr o then
      let d1 := rest.takeWhile Char.isDigit
      let r1 := rest.dropWhile Char.isDigit
      if d1.isEmpty then none else
      match r1 with
      | '/' :: r2 =>
        let d2 := r2.takeWhile Char.isDigit
        let r3 := r2.dropWhile Char.isDigit
        if d2.isEmpty then none else
        match r3 with
        | c :: r4 => if pair o c then some (digitsToNat 0 d1, digitsToNat 0 d2, r4) else none
        | [] => none
      | _ => none
    else none

/-- re.search of the bracket pattern: try every position from the left,
return the captures of the first match. -/
def searchBracket (pair : Char → Char → Bool) : List Char → Option (Nat × Nat)
  | [] => none
  | c :: t =>
    match matchBracketAt pair (c :: t) with
    | some (n, m, _) => some (n, m)
    | none => searchBracket pair t

/-- Fuel-based loop of re.finditer for the bracket pattern: all
non-overlapping matches from the left, each search resuming after the end
of the previous match.  Every step shortens the list by at least one
character (a match consumes at least its opening bracket), so fuel equal
to the list length never runs out. -/
def finditerBracketGo (pair : Char → Char → Bool) : Nat → List Char → List (Nat × Nat)
  | 0, _ => []
  | _, [] => []
  | fuel + 1, c :: t =>
    match matchBracketAt pair (c :: t) with
    | some (n, m, r) => (n, m) :: finditerBracketGo pair fuel r
    | none => finditerBracketGo pair fuel t

/-- re.finditer of the bracket pattern. -/
def finditerBracket (pair : Char → Char → Bool) (cs : List Char) : List (Nat × Nat) :=
  finditerBracketGo pair cs.length cs

/-- Word characters of the regex \b boundary (the \w class over ASCII). -/
def isWordChar (c : Char) : Bool := c.isAlphanum || c == '_'

/-- A \b boundary holds before a word character when the preceding
character (none at the start of the string) is not a word character. -/
def boundaryOk (prev : Option Char) : Bool :=
  match prev with
  | none => true
  | some c => !isWordChar c

/-- A \b boundary holds after a word character when the following text is
empty or starts with a non-word character. -/
def boundaryAfter (cs : List Char) : Bool :=
  match cs with
  | [] => true
  | c :: _ => !isWordChar c

/-- One anchored attempt of \bpart\s+(\d+)\s+of\s+(\d+)\b (IGNORECASE) at
the head of the list, `prev` being the character just before it.  Returns
the captures, the last matched character (a digit of the second capture,
kept for boundary tracking by the callers that continue scanning), and
the remainder. -/
def matchPartAt (prev : Option Char) (cs : List Char) : Option (Nat × Nat × Char × List Char) :=
  if !boundaryOk prev then none else
  match cs with
  | p :: a :: r :: t :: rest =>
    if p.toLower == 'p' && a.toLower == 'a' && r.toLower == 'r' && t.toLower == 't' then
      let w1 := rest.takeWhile pySpace
      let r1 := rest.dropWhile pySpace
      if w1.isEmpty then none else
      let d1 := r1.takeWhile Char.isDigit
      let r2 := r1.dropWhile Char.isDigit
      if d1.isEmpty then none else
      let w2 := r2.takeWhile pySpace
      let r3 := r2.dropWhile pySpace
      if w2.isEmpty then none else
      match r3 with
      | o :: f :: r4 =>
        if o.toLower == 'o' && f.toLower == 'f' then
          let w3 := r4.takeWhile pySpace
          let r5 := r4.dropWhile pySpace
          if w3.isEmpty then none else
          let d2 := r5.takeWhile Char.isDigit
          let r6 := r5.dropWhile Char.isDigit
          if d2.isEmpty then none else
          if boundaryAfter r6 then
            some (digitsToNat 0 d1, digitsToNat 0 d2, d2.getLastD '0', r6)
          else none
        else none
      | _ => none
    else none
  | _ => none

/-- re.search of the part-phrase pattern, `prev` being the character just
before the current position. -/
def searchPart (prev : Option Char) : List Char → Option (Nat × Nat)
  | [] => none
  | c :: t =>
    match matchPartAt prev (c :: t) with
    | some (n, m, _, _) => some (n, m)
    | none => searchPart (some c) t

/-- Fuel-based loop of re.finditer for the part-phrase pattern.  Every
step shortens the list by at least one character, so fuel equal to the
list length never runs out. -/
def finditerPartGo : Nat → Option Char → List Char → List (Nat × Nat)
  | 0, _, _ => []
  | _, _, [] => []
  | fuel + 1, prev, c :: t =>
    match matchPartAt prev (c :: t) with
    | some (n, m, lc, r) => (n, m) :: finditerPartGo fuel (some lc) r
    | none => finditerPartGo fuel (some c) t

/-- re.finditer of the part-phrase pattern. -/
def finditerPart (prev : Option Char) (cs : List Char) : List (Nat × Nat) :=
  finditerPartGo cs.length prev cs

/-! ## nntp_lib/nzb.py: extraction and subject normalization -/

/-- extract_nm_leftmost from nzb.py: the first bracket-pattern match
anywhere in the subject; only when the bracket pattern matches nowhere,
the first part-phrase match; otherwise None. -/
def extract_nm_leftmost (subject : String) : Option (Nat × Nat) :=
  match searchBracket anyBracketPair subject.toList with
  | some nm => some nm
  | none => searchPart none subject.toList

/-- extract_nm_rightmost from nzb.py: the last bracket-pattern match if
any, else the last part-phrase match, else None. -/
def extract_nm_rightmost (subject : String) : Option (Nat × Nat) :=
  match (finditerBracket anyBracketPair subject.toList).getLast? with
  | some nm => some nm
  | none =>
    match (finditerPart none subject.toList).getLast? with
    | some nm => some nm
    | none => none

/-- Fuel-based loop of re.sub for the bracket pattern with the empty
string: every non-overlapping match is deleted, the rest is kept.  Fuel
equal to the list length suffices as above. -/
def subBracketPatGo : Nat → List Char → List Char
  | 0, _ => []
  | _, [] => []
  | fuel + 1, c :: t =>
    match matchBracketAt anyBracketPair (c :: t) with
    | some (_, _, r) => subBracketPatGo fuel r
    | none => c :: subBracketPatGo fuel t

/-- re.sub of the bracket pattern with the empty string. -/
def subBracketPat (cs : List Char) : List Char := subBracketPatGo cs.length cs

/-- re.sub of the part-phrase pattern with the empty string.  The word
boundaries are judged against the original characters, so the scan
carries the character preceding the current position (the last character
of a deleted match for the continuation after it). -/
def subPartPatGo : Nat → Option Char → List Char → List Char
  | 0, _, _ => []
  | _, _, [] => []
  | fuel + 1, prev, c :: t =>
    match matchPartAt prev (c :: t) with
    | some (_, _, lc, r) => subPartPatGo fuel (some lc) r
    | none => c :: subPartPatGo fuel (some c) t

/-- re.sub of the part-phrase pattern with the empty string (fuel as
above). -/
def subPartPat (prev : Option Char) (cs : List Char) : List Char :=
  subPartPatGo cs.length prev cs

/-- One anchored attempt of \byEnc\b (IGNORECASE): the four letters with
word boundaries on both sides.  Returns the last matched character and
the remainder. -/
def matchYencAt (prev : Option Char) (cs : List Char) : Option (Char × List Char) :=
  if !boundaryOk prev then none else
  match cs with
  | y :: e :: n :: c :: r =>
    if y.toLower == 'y' && e.toLower == 'e' && n.toLower == 'n' && c.toLower == 'c' &&
       boundaryAfter r then
      some (c, r)
    else none
  | _ => none

/-- Fuel-based loop of re.sub for \byEnc\b with the empty string (fuel
as above). -/
def subYencGo : Nat → Option Char → List Char → List Char
  | 0, _, _ => []
  | _, _, [] => []
  | fuel + 1, prev, c :: t =>
    match matchYencAt prev (c :: t) with
    | some (lc, r) => subYencGo fuel (some lc) r
    | none => c :: subYencGo fuel (some c) t

/-- re.sub of \byEnc\b with the empty string. -/
def subYenc (prev : Option Char) (cs : List Char) : List Char :=
  subYencGo cs.length prev cs

/-- Python str.strip() over the modelled whitespace set. -/
def pyStrip (cs : List Char) : List Char :=
  ((cs.dropWhile pySpace).reverse.dropWhile pySpace).reverse

/-- normalize_subject_base from nzb.py: delete every bracket-pattern
token, then every part-phrase token, then every yEnc token, then strip
surrounding whitespace. -/
def normalize_subject_base (subject : String) : String :=
  String.mk (pyStrip (subYenc none (subPartPat none (subBracketPat subject.toList))))

/-! ## nntp_lib/nzb.py: grouping engine and manifest builder -/

/-- One row as selected from the articles table by create_nzb_from_db
(message_id, subject, from_addr, date_utc, bytes, artnum, group_name;
text columns may be NULL). -/
structure NzbRow where
  message_id : Option String
  subject : Option String
  from_addr : Option String
  date_utc : Option String
  bytes : Option Int
  artnum : Int
  group_name : String
deriving DecidableEq

/-- Python `s or ""` on a nullable string column: None and "" both give
"". -/
def pyStrOrEmpty (v : Option String) : String :=
  match v with
  | some s => if s != "" then s else ""
  | none => ""

/-- Group key (base subject, total part count, poster) of
_group_with_picker. -/
abbrev GroupKey := String × Nat × String

/-- groups.setdefault(key, []).append(r): append to the existing entry of
the key, keeping dict insertion order, or append a new entry at the
end. -/
def addToGroups (gs : List (GroupKey × List NzbRow)) (k : GroupKey) (r : NzbRow) :
    List (GroupKey × List NzbRow) :=
  match gs with
  | [] => [(k, [r])]
  | (k0, parts) :: rest =>
    if k0 = k then (k0, parts ++ [r]) :: rest else (k0, parts) :: addToGroups rest k r

/-- The loop body of _group_with_picker: a record without a token joins
the singles, one with a token joins the group of
(normalized base subject, m, poster). -/
def group_with_picker_step (picker : String → Option (Nat × Nat))
    (st : List (GroupKey × List NzbRow) × List NzbRow) (r : NzbRow) :
    List (GroupKey × List NzbRow) × List NzbRow :=
  let subj := pyStrOrEmpty r.subject
  let poster := pyStrOrEmpty r.from_addr
  match picker subj with
  | none => (st.1, st.2 ++ [r])
  | some nm => (addToGroups st.1 (normalize_subject_base subj, nm.2, poster) r, st.2)

/-- _group_with_picker from nzb.py (the leading underscore is dropped for
Lean). -/
def group_with_picker (rows : List NzbRow) (picker : String → Option (Nat × Nat)) :
    List (GroupKey × List NzbRow) × List NzbRow :=
  rows.foldl (group_with_picker_step picker) ([], [])

/-- score_groups inside group_rows_auto: (total grouped records, number
of groups with more than one member). -/
def score_groups (groups : List (GroupKey × List NzbRow)) : Nat × Nat :=
  ((groups.map (fun g => g.2.length)).sum,
   (groups.filter (fun g => g.2.length > 1)).length)

/-- Python tuple comparison `a > b` on pairs of ints: lexicographic,
first components first. -/
def pyTupleGt (a b : Nat × Nat) : Bool :=
  a.1 > b.1 || (a.1 == b.1 && a.2 > b.2)

/-- group_rows_auto from nzb.py: run both extraction strategies over the
whole batch, score both candidate groupings, and keep the rightmost
result exactly when its score tuple is strictly greater; on a tie or a
smaller score the leftmost result is kept. -/
def group_rows_auto (rows : List NzbRow) : List (GroupKey × List NzbRow) × List NzbRow :=
  let left := group_with_picker rows extract_nm_leftmost
  let right := group_with_picker rows extract_nm_rightmost
  if pyTupleGt (score_groups right.1) (score_groups left.1) then right else left

/-- message_id_text from nzb.py: None or "" give ""; otherwise the id is
stripped of surrounding whitespace and of one pair of enclosing angle
brackets when both are present. -/
def message_id_text (mid : Option String) : String :=
  match mid with
  | none => ""
  | some s =>
    if s == "" then ""
    else
      let t := pyStrip s.toList
      match t with
      | '<' :: rest =>
        if rest.getLast? == some '>' then String.mk rest.dropLast else String.mk t
      | _ => String.mk t

/-- One segment element of the manifest: bytes and number attributes and
the bare message identifier as text. -/
structure NzbSegment where
  seg_bytes : Int
  number : Nat
  mid : String
deriving DecidableEq

/-- One file element of the manifest: poster, generation timestamp, base
subject, the containing group name, and the ordered segment list. -/
structure NzbFile where
  poster : String
  date : Int
  subject : String
  groupTag : String
  segments : List NzbSegment
deriving DecidableEq

/-- The per-member part-number extraction inside build_nzb_xml:
`extract_nm_rightmost(subj) or extract_nm_leftmost(subj)` (a present
tuple is always truthy), dropping members with no token. -/
def partsWithNumbers (parts : List NzbRow) : List (Nat × NzbRow) :=
  parts.filterMap (fun part =>
    let subj := pyStrOrEmpty part.subject
    match extract_nm_rightmost subj with
    | some nm => some (nm.1, part)
    | none =>
      match extract_nm_leftmost subj with
      | some nm => some (nm.1, part)
      | none => none)

/-- missing_parts = set(range(1, m + 1)) - part_numbers. -/
def missingParts (m : Nat) (nums : List Nat) : List Nat :=
  (List.range' 1 m).filter (fun i => !nums.contains i)

/-- Sort key of `parts_with_numbers.sort(key=lambda x: x[0])`. -/
def partNumLe (a b : Nat × NzbRow) : Bool := a.1 ≤ b.1

/-- Python `v or 0` on the nullable bytes column. -/
def pyIntOrZero (v : Option Int) : Int :=
  match v with
  | some n => if n != 0 then n else 0
  | none => 0

/-- The per-group body of build_nzb_xml: `none` when the group is skipped
(incomplete set under require_complete_sets, executable-extension
blocklist, or part-number gaps under require_complete_sets), otherwise
the emitted file element with its segments sorted by true part number. -/
def emitGroup (require_complete_sets : Bool) (group_name : String) (now : Int)
    (key : GroupKey) (parts : List NzbRow) : Option NzbFile :=
  let base := key.1
  let m := key.2.1
  let poster := key.2.2
  if require_complete_sets ∧ parts.length < m then none
  else if List.isSuffixOf ".exe".toList (base.toList.map Char.toLower) then none
  else
    let pwn := partsWithNumbers parts
    let part_numbers := pwn.map Prod.fst
    if part_numbers ≠ [] ∧ missingParts m part_numbers ≠ [] ∧ require_complete_sets then none
    else
      some { poster := poster
             date := now
             subject := base
             groupTag := group_name
             segments := (pySort partNumLe pwn).map (fun p =>
               { seg_bytes := pyIntOrZero p.2.bytes
                 number := p.1
                 mid := message_id_text p.2.message_id }) }

/-- build_nzb_xml from nzb.py, modelled as the list of file elements
under the manifest root (the XML text rendering, the pretty printer and
the DOCTYPE insertion carry no further record content).  `now` stands
for the wall-clock timestamp written into each file element.  As in the
source, the singles argument is accepted but never read: only grouped
records are serialized. -/
def build_nzb_xml (groups : List (GroupKey × List NzbRow)) (singles : List NzbRow)
    (group_name : String) (require_complete_sets : Bool) (now : Int) : List NzbFile :=
  groups.filterMap (fun g => emitGroup require_complete_sets group_name now g.1 g.2)

/-! ## scripts/find_date_range.py and scripts/create_db.py

The remote timestamp lookup plus days_old computation is modelled by an
age function: for each article number either the article's age in days
(a rational, standing for the float of the source) or none when the
probe finds no article or no parsable date. -/

/-- The while-loop of binary_search_date_boundary.  `res` is the running
`result`.  A probe miss narrows the same direction the search was
narrowing; a hit updates `result` and narrows toward the requested
boundary.  Python's floor division `//` agrees with Int division here
(the divisor is positive). -/
def binary_search_go (age : Int → Option ℚ) (target_days : Int) (find_lower : Bool)
    (low high res : Int) : Int :=
  if h : low ≤ high then
    let mid := (low + high) / 2
    match age mid with
    | none =>
      if find_lower then binary_search_go age target_days find_lower low (mid - 1) res
      else binary_search_go age target_days find_lower (mid + 1) high res
    | some a =>
      if find_lower then
        if (target_days : ℚ) ≤ a then binary_search_go age target_days find_lower (mid + 1) high mid
        else binary_search_go age target_days find_lower low (mid - 1) res
      else
        if a ≤ (target_days : ℚ) then binary_search_go age target_days find_lower low (mid - 1) mid
        else binary_search_go age target_days find_lower (mid + 1) high res
  else res
termination_by (high + 1 - low).toNat
decreasing_by
  all_goals omega

/-- binary_search_date_boundary from find_date_range.py: result starts at
`low` when searching the older boundary and at `high` when searching the
younger one. -/
def binary_search_date_boundary (age : Int → Option ℚ) (low high : Int)
    (target_days : Int) (find_lower : Bool) : Int :=
  binary_search_go age target_days find_lower low high (if find_lower then low else high)

/-- find_article_range_by_dates from find_date_range.py: give up (None)
when the newest article is already older than max_days or the oldest is
already younger than min_days (each test skipped when that probe returns
no date); otherwise run the two independent boundary searches over
[first, last] and return their raw results with the re-probed ages. -/
def find_article_range_by_dates (age : Int → Option ℚ) (first last : Int)
    (min_days max_days : Int) : Option (Int × Int × Option ℚ × Option ℚ) :=
  let go :=
    let lower_artnum := binary_search_date_boundary age first last min_days true
    let upper_artnum := binary_search_date_boundary age first last max_days false
    some (lower_artnum, upper_artnum, age lower_artnum, age upper_artnum)
  let oldest_check :=
    match age first with
    | some d => if d < (min_days : ℚ) then none else go
    | none => go
  match age last with
  | some d => if (max_days : ℚ) < d then none else oldest_check
  | none => oldest_check

/-- The [filters] options read by get_article_range in create_db.py;
a `none` field models an absent option. -/
structure FilterConfig where
  local_min : Option Int
  local_max : Option Int
  min_days : Option Int
  max_days : Option Int

/-- get_article_range from create_db.py: configured explicit bounds win
when both positive and ordered; otherwise a valid day window triggers the
date search, whose result is reordered with min/max; on a failed search
or no applicable filter the passed-in bounds are returned unchanged. -/
def get_article_range (cfg : FilterConfig) (age : Int → Option ℚ) (first last : Int)
    (local_min local_max : Int) : Int × Int :=
  let date_step :=
    match cfg.min_days, cfg.max_days with
    | some mn, some mx =>
      if 0 < mn ∧ 0 < mx ∧ mn < mx then
        match find_article_range_by_dates age first last mn mx with
        | some (lo, hi, _, _) => (min lo hi, max lo hi)
        | none => (local_min, local_max)
      else (local_min, local_max)
    | _, _ => (local_min, local_max)
  match cfg.local_min, cfg.local_max with
  | some a, some b => if 0 < a ∧ 0 < b ∧ a < b then (a, b) else date_step
  | _, _ => date_step

/-! ## Claim-side predicates

The following predicates render the claims' wording ("the subject
contains a substring of the form ...") as explicit decompositions; they
are compared with the scanners translated from the source. -/

/-- The character before a given position: the last character of the
prefix, or the ambient preceding character when the prefix is empty. -/
def lastCharOr (prev : Option Char) (pre : List Char) : Option Char :=
  match pre.getLast? with
  | some c => some c
  | none => prev

/-- The subject contains a bracketed part counter: an opening bracket, a
nonempty digit run, a slash, a nonempty digit run and a closing bracket
accepted by `pair` (`strictBracketPair` for the claimed matching pairs,
`anyBracketPair` for what the source pattern accepts). -/
def ContainsBracketForm (pair : Char → Char → Bool) (cs : List Char) : Prop :=
  ∃ pre o d1 d2 c post,
    cs = pre ++ o :: (d1 ++ '/' :: (d2 ++ c :: post)) ∧
    isOpenBr o = true ∧ pair o c = true ∧
    d1 ≠ [] ∧ (∀ x ∈ d1, x.isDigit = true) ∧
    d2 ≠ [] ∧ (∀ x ∈ d2, x.isDigit = true)

/-- The text at some position contains the phrase "part n of m"
(case-insensitive): the four letters of "part", whitespace, digits,
whitespace, "of", whitespace, digits, delimited by word boundaries on
both sides (`prev` is the character before the scanned text). -/
def ContainsPartToken (prev : Option Char) (cs : List Char) : Prop :=
  ∃ pre t1 w1 d1 w2 t2 w3 d2 post,
    cs = pre ++ (t1 ++ (w1 ++ (d1 ++ (w2 ++ (t2 ++ (w3 ++ (d2 ++ post))))))) ∧
    t1.map Char.toLower = "part".toList ∧
    t2.map Char.toLower = "of".toList ∧
    w1 ≠ [] ∧ (∀ x ∈ w1, pySpace x = true) ∧
    w2 ≠ [] ∧ (∀ x ∈ w2, pySpace x = true) ∧
    w3 ≠ [] ∧ (∀ x ∈ w3, pySpace x = true) ∧
    d1 ≠ [] ∧ (∀ x ∈ d1, x.isDigit = true) ∧
    d2 ≠ [] ∧ (∀ x ∈ d2, x.isDigit = true) ∧
    boundaryOk (lastCharOr prev pre) = true ∧
    boundaryAfter post = true

/-- The subject contains a part-counter token in one of the exact claimed
forms: a matching bracket pair around n/m, or the "part n of m"
phrase. -/
def ContainsTokenStrict (s : String) : Prop :=
  ContainsBracketForm strictBracketPair s.toList ∨ ContainsPartToken none s.toList

/-- The subject contains a part-counter token as the source accepts it:
any opening bracket and any closing bracket around n/m (the brackets need
not pair up), or the "part n of m" phrase. -/
def ContainsTokenAny (s : String) : Prop :=
  ContainsBracketForm anyBracketPair s.toList ∨ ContainsPartToken none s.toList

/-! ## Hypothesis helpers for the chunked-fetch theorem -/

/-- The article numbers of one inclusive sub-range. -/
def chunkRange (c : Nat × Nat) : List Nat := List.range' c.1 (c.2 + 1 - c.1)

/-- The sub-ranges cover the range [lo, hi] exactly, in order and without
overlap: their concatenated article numbers are those of [lo, hi]. -/
def chunksCover (chunks : List (Nat × Nat)) (lo hi : Nat) : Prop :=
  (chunks.map chunkRange).flatten = List.range' lo (hi + 1 - lo)

/-- Every article of [lo, hi] present on the server carries exactly the
key list K (one overview response uses one schema; the per-chunk key map
then agrees with the key map of the whole range). -/
def schemaOk (r : Remote) (K : List String) (lo hi : Nat) : Bool :=
  (List.range' lo (hi + 1 - lo)).all (fun i => (r.ov i).all (fun o => o.map Prod.fst == K))

/-- Every article of [lo, hi] present on the server normalizes without
raising under the key map of K ("no fetch fails"). -/
def rowsOk (parse : String → Option String) (r : Remote) (group : String) (K : List String)
    (lo hi : Nat) : Bool :=
  (List.range' lo (hi + 1 - lo)).all (fun i =>
    (r.ov i).all (fun o => (row_from_overview group (i : Int) o (buildKeyMap K) parse).isSome))

/-- The rows of [lo, hi] as normalized one by one (model-side description
of a successful fetch over the range). -/
def pureRows (parse : String → Option String) (r : Remote) (group : String) (K : List String)
    (lo hi : Nat) : List FetchRow :=
  (List.range' lo (hi + 1 - lo)).filterMap (fun i =>
    (r.ov i).bind (fun o => row_from_overview group (i : Int) o (buildKeyMap K) parse))

/-! # Theorems -/

/-! ## The stable sort -/

theorem pyInsert_perm (le : α → α → Bool) (x : α) :
    ∀ l : List α, (pyInsert le x l).Perm (x :: l) := by
  intro l
  induction l with
  | nil => exact List.Perm.refl _
  | cons y t ih =>
    simp only [pyInsert]
    split
    · exact ((ih.cons y).trans (List.Perm.swap x y t))
    · exact List.Perm.refl _

theorem pySort_perm (le : α → α → Bool) : ∀ l : List α, (pySort le l).Perm l := by
  intro l
  induction l with
  | nil => exact List.Perm.refl _
  | cons x t ih => exact (pyInsert_perm le x (pySort le t)).trans (ih.cons x)

theorem pyInsert_sorted (le : α → α → Bool)
    (htrans : ∀ a b c, le a b = true → le b c = true → le a c = true)
    (htotal : ∀ a b, (le a b || le b a) = true) (x : α) :
    ∀ l : List α, List.Pairwise (fun a b => le a b = true) l →
      List.Pairwise (fun a b => le a b = true) (pyInsert le x l) := by
  intro l
  induction l with
  | nil => intro _; exact List.pairwise_singleton _ x
  | cons y t ih =>
    intro hp
    rcases List.pairwise_cons.mp hp with ⟨hy, ht⟩
    simp only [pyInsert]
    split
    case isTrue hc =>
      have hyx : le y x = true := by
        simp only [Bool.and_eq_true] at hc
        exact hc.1
      refine List.pairwise_cons.mpr ⟨?_, ih ht⟩
      intro z hz
      rcases (pyInsert_perm le x t).mem_iff.mp hz with hz2
      rcases List.mem_cons.mp hz2 with rfl | hz3
      · exact hyx
      · exact hy z hz3
    case isFalse hc =>
      have hxy : le x y = true := by
        have h0 := htotal x y
        simp only [Bool.or_eq_true] at h0
        rcases h0 with h1 | h1
        · exact h1
        · by_cases h2 : le x y = true
          · exact h2
          · exfalso
            apply hc
            have h3 : le x y = false := by
              cases h4 : le x y
              · rfl
              · exact absurd h4 h2
            simp [h1, h3]
      refine List.pairwise_cons.mpr ⟨?_, hp⟩
      intro z hz
      rcases List.mem_cons.mp hz with rfl | hz2
      · exact hxy
      · exact htrans x y z hxy (hy z hz2)

theorem pySort_sorted (le : α → α → Bool)
    (htrans : ∀ a b c, le a b = true → le b c = true → le a c = true)
    (htotal : ∀ a b, (le a b || le b a) = true) :
    ∀ l : List α, List.Pairwise (fun a b => le a b = true) (pySort le l) := by
  intro l
  induction l with
  | nil => exact List.Pairwise.nil
  | cons x t ih => exact pyInsert_sorted le htrans htotal x (pySort le t) ih

/-! ## Store upsert (claim C8) -/

theorem setGroupName_message_id (g : String) (r : FetchRow) :
    (setGroupName g r).message_id = r.message_id := rfl

theorem hasMessageId_mono (db : List FetchRow) (r : FetchRow) (m : Option PyVal)
    (h : hasMessageId db m = true) : hasMessageId (insertOrIgnore db r) m = true := by
  unfold insertOrIgnore
  split
  · exact h
  · unfold hasMessageId at h ⊢
    rw [List.any_append]
    simp [h]

theorem hasMessageId_insert_self (db : List FetchRow) (r : FetchRow) :
    hasMessageId (insertOrIgnore db r) r.message_id = true := by
  unfold insertOrIgnore
  split
  case isTrue h => exact h
  case isFalse h =>
    unfold hasMessageId
    rw [List.any_append]
    simp

theorem upsert_headers_mono (g : String) :
    ∀ (rows : List FetchRow) (db : List FetchRow) (m : Option PyVal),
      hasMessageId db m = true → hasMessageId (upsert_headers db g rows) m = true := by
  intro rows
  induction rows with
  | nil => intro db m h; exact h
  | cons r t ih =>
    intro db m h
    show hasMessageId (upsert_headers (insertOrIgnore db (setGroupName g r)) g t) m = true
    exact ih _ _ (hasMessageId_mono _ _ _ h)

theorem upsert_headers_has_all (g : String) :
    ∀ (rows : List FetchRow) (db : List FetchRow) (r : FetchRow), r ∈ rows →
      hasMessageId (upsert_headers db g rows) r.message_id = true := by
  intro rows
  induction rows with
  | nil => intro db r h; cases h
  | cons a t ih =>
    intro db r h
    rcases List.mem_cons.mp h with heq | hmem
    · subst heq
      show hasMessageId (upsert_headers (insertOrIgnore db (setGroupName g r)) g t) r.message_id = true
      apply upsert_headers_mono
      have h2 := hasMessageId_insert_self db (setGroupName g r)
      rwa [setGroupName_message_id] at h2
    · exact ih _ _ hmem

theorem upsert_headers_noop (g : String) :
    ∀ (rows : List FetchRow) (db : List FetchRow),
      (∀ r ∈ rows, hasMessageId db r.message_id = true) → upsert_headers db g rows = db := by
  intro rows
  induction rows with
  | nil => intro db _; rfl
  | cons a t ih =>
    intro db h
    have ha : insertOrIgnore db (setGroupName g a) = db := by
      unfold insertOrIgnore
      rw [setGroupName_message_id, h a (List.mem_cons_self a t)]
      simp
    show upsert_headers (insertOrIgnore db (setGroupName g a)) g t = db
    rw [ha]
    exact ih db (fun r hr => h r (List.mem_cons_of_mem a hr))

/-- C8: applying the store upsert twice with the same record list yields
the same stored content as applying it once; the insert is keyed by
message_id and records whose key is already present are silently
ignored, so the upsert is idempotent. -/
theorem upsert_headers_idempotent (db : List FetchRow) (group : String) (rows : List FetchRow) :
    upsert_headers (upsert_headers db group rows) group rows = upsert_headers db group rows :=
  upsert_headers_noop group rows (upsert_headers db group rows)
    (fun r hr => upsert_headers_has_all group rows db r hr)

/-! ## Manifest builder (claims C2 and C9) -/

theorem length_filterMap_eq_countP (f : α → Option β) :
    ∀ l : List α, (l.filterMap f).length = l.countP (fun a => (f a).isSome) := by
  intro l
  induction l with
  | nil => rfl
  | cons a t ih =>
    cases h : f a <;> simp [List.filterMap_cons, h, List.countP_cons, ih]

/-- C2 (counterexample): the manifest builder does not serialize singles.
With no groups and one single record the produced manifest has no file
entry at all, although the claim requires an entry for that single. -/
theorem build_nzb_xml_drops_singles :
    build_nzb_xml [] [⟨some "<id1>", some "hello", some "p", none, some 10, 1, "g"⟩]
      "g" false 0 = [] := rfl

/-- C2 (amended): the manifest document contains one file entry per
emitted group and nothing else; the singles argument is ignored entirely
(the output does not depend on it). -/
theorem build_nzb_xml_serializes_only_groups (groups : List (GroupKey × List NzbRow))
    (singles1 singles2 : List NzbRow) (gname : String) (rc : Bool) (now : Int) :
    build_nzb_xml groups singles1 gname rc now = build_nzb_xml groups singles2 gname rc now ∧
    (build_nzb_xml groups singles1 gname rc now).length =
      groups.countP (fun g => (emitGroup rc gname now g.1 g.2).isSome) :=
  ⟨rfl, length_filterMap_eq_countP _ groups⟩

theorem partNumLe_trans (a b c : Nat × NzbRow) :
    partNumLe a b = true → partNumLe b c = true → partNumLe a c = true := by
  simp only [partNumLe, decide_eq_true_eq]
  omega

theorem partNumLe_total (a b : Nat × NzbRow) : (partNumLe a b || partNumLe b a) = true := by
  simp only [partNumLe, Bool.or_eq_true, decide_eq_true_eq]
  omega

/-- C9: whenever a group is emitted, its segment list has exactly one
segment per member whose subject yields a part number under
rightmost-falling-back-to-leftmost extraction (as a permutation of those
members' segments: no deduplication, no upper-bound check, so duplicate
part numbers and numbers above m all appear), sorted ascending by part
number; and the gap computation {1..m} minus the observed numbers is
unaffected by any observed number above m. -/
theorem emitGroup_segments_spec (rc : Bool) (gname : String) (now : Int) (key : GroupKey)
    (parts : List NzbRow) (fe : NzbFile) (h : emitGroup rc gname now key parts = some fe) :
    List.Sorted (fun a b : NzbSegment => a.number ≤ b.number) fe.segments ∧
    fe.segments.Perm ((partsWithNumbers parts).map (fun p =>
      { seg_bytes := pyIntOrZero p.2.bytes
        number := p.1
        mid := message_id_text p.2.message_id })) ∧
    ∀ (mm n : Nat) (nums : List Nat), mm < n →
      missingParts mm (n :: nums) = missingParts mm nums := by
  simp only [emitGroup] at h
  split at h
  · exact absurd h (by simp)
  · split at h
    · exact absurd h (by simp)
    · split at h
      · exact absurd h (by simp)
      · cases h
        refine ⟨?_, ?_, ?_⟩
        · have hp := pySort_sorted partNumLe partNumLe_trans partNumLe_total
            (partsWithNumbers parts)
          exact List.Pairwise.map _
            (fun a b hab => by
              simpa [partNumLe, decide_eq_true_eq] using hab) hp
        · exact List.Perm.map _ (pySort_perm partNumLe (partsWithNumbers parts))
        · intro mm n nums hlt
          unfold missingParts
          apply List.filter_congr
          intro i hi
          have hin : 1 ≤ i ∧ i < 1 + mm := List.mem_range'_1.mp hi
          have hne : i ≠ n := by omega
          simp [List.contains_cons, hne]

/-! ## Chunked fetcher bound defaulting (claim C10) -/

/-- C10: the slice temp_client.group(group)[1:3] yields (count, first),
not (last, first).  At this concrete remote group (count 6, articles
100..110) a zero lower bound is indeed replaced by the first article
number 100, but a zero upper bound becomes the article COUNT 6 instead
of the last article number 110, and the fetcher consequently fetches
nothing at all (100 > 6) although articles exist. -/
theorem fetch_headers_chunked_upper_bound_is_count :
    groupInfoSlice ⟨6, 100, 110, fun _ => none⟩ = (6, 100) ∧
    resolveBounds 0 0 6 100 = (100, 6) ∧
    (6 : Nat) ≠ (Remote.mk 6 100 110 (fun _ => none)).last ∧
    fetch_headers_chunked (fun _ => none) ⟨6, 100, 110, fun _ => none⟩ "g" 0 0 0 1000 = [] :=
  ⟨rfl, rfl, by decide, by
    simp [fetch_headers_chunked, runChunksInOrder, groupInfoSlice, resolveBounds, wantCount,
      buildChunks, pySort]⟩

/-! ## Grouping strategy selection (claim C4) -/

theorem pyTupleGt_iff_lex (a b : Nat × Nat) : pyTupleGt a b = true ↔ toLex b < toLex a := by
  rw [Prod.Lex.lt_iff]
  simp only [pyTupleGt, Bool.or_eq_true, Bool.and_eq_true, decide_eq_true_eq, beq_iff_eq,
    gt_iff_lt]
  omega

/-- C4: group_rows_auto evaluates both candidate groupings, scores each
with (total grouped records, number of multi-member groups), and selects
the rightmost grouping exactly when its score is strictly greater in the
lexicographic order; otherwise (ties included) the leftmost grouping is
selected for the whole batch. -/
theorem group_rows_auto_lex_selection (rows : List NzbRow) :
    (toLex (score_groups (group_with_picker rows extract_nm_leftmost).1) <
       toLex (score_groups (group_with_picker rows extract_nm_rightmost).1) →
     group_rows_auto rows = group_with_picker rows extract_nm_rightmost) ∧
    (¬ toLex (score_groups (group_with_picker rows extract_nm_leftmost).1) <
       toLex (score_groups (group_with_picker rows extract_nm_rightmost).1) →
     group_rows_auto rows = group_with_picker rows extract_nm_leftmost) := by
  constructor
  · intro hgt
    simp only [group_rows_auto]
    rw [if_pos ((pyTupleGt_iff_lex _ _).mpr hgt)]
  · intro hle
    simp only [group_rows_auto]
    rw [if_neg (fun hc => hle ((pyTupleGt_iff_lex _ _).mp hc))]

/-- Witness for C4 at a concrete batch where the two strategies disagree:
the rightmost grouping joins both records into one group of the key
("A", 3, "p") while the leftmost one produces two singleton groups, so
the rightmost strategy is selected. -/
theorem group_rows_auto_lex_selection_witness :
    group_rows_auto
      [⟨some "<a1>", some "[1/2] A (1/3)", some "p", none, some 5, 1, "g"⟩,
       ⟨some "<a2>", some "[2/9] A (2/3)", some "p", none, some 6, 2, "g"⟩] =
    group_with_picker
      [⟨some "<a1>", some "[1/2] A (1/3)", some "p", none, some 5, 1, "g"⟩,
       ⟨some "<a2>", some "[2/9] A (2/3)", some "p", none, some 6, 2, "g"⟩]
      extract_nm_rightmost :=
  (group_rows_auto_lex_selection _).1 ((pyTupleGt_iff_lex _ _).mp (by decide))

/-- Witness for C9 at a concrete emitted group: two members with subjects
"A (2/2)" and "A (1/2)" arriving out of order. -/
theorem emitGroup_segments_spec_witness :
    ∃ fe, emitGroup false "g" 7 ("A", 2, "p")
        [⟨some "<b2>", some "A (2/2)", some "p", none, some 20, 2, "g"⟩,
         ⟨some "<b1>", some "A (1/2)", some "p", none, some 10, 1, "g"⟩] = some fe ∧
      (List.Sorted (fun a b : NzbSegment => a.number ≤ b.number) fe.segments ∧
       fe.segments.Perm ((partsWithNumbers
          [⟨some "<b2>", some "A (2/2)", some "p", none, some 20, 2, "g"⟩,
           ⟨some "<b1>", some "A (1/2)", some "p", none, some 10, 1, "g"⟩]).map (fun p =>
         { seg_bytes := pyIntOrZero p.2.bytes
           number := p.1
           mid := message_id_text p.2.message_id })) ∧
       ∀ (mm n : Nat) (nums : List Nat), mm < n →
         missingParts mm (n :: nums) = missingParts mm nums) :=
  ⟨{ poster := "p", date := 7, subject := "A", groupTag := "g",
     segments := [⟨10, 1, "b1"⟩, ⟨20, 2, "b2"⟩] },
   by decide,
   emitGroup_segments_spec false "g" 7 ("A", 2, "p")
     [⟨some "<b2>", some "A (2/2)", some "p", none, some 20, 2, "g"⟩,
      ⟨some "<b1>", some "A (1/2)", some "p", none, some 10, 1, "g"⟩]
     { poster := "p", date := 7, subject := "A", groupTag := "g",
       segments := [⟨10, 1, "b1"⟩, ⟨20, 2, "b2"⟩] }
     (by decide)⟩

/-! ## Field normalizer totality (claim C1) -/

theorem pyOr_of_falsy (v : Option PyVal) (d : PyVal)
    (h : v.all (fun x => !x.truthy) = true) : pyOr v d = d := by
  cases v with
  | none => rfl
  | some x =>
    simp only [Option.all_some, Bool.not_eq_true'] at h
    simp [pyOr, h]

theorem to_iso_none_of_falsy (parse : String → Option String) (v : Option PyVal)
    (h : v.all (fun x => !x.truthy) = true) : to_iso parse v = none := by
  cases v with
  | none => rfl
  | some x =>
    simp only [Option.all_some, Bool.not_eq_true'] at h
    simp [to_iso, h]

theorem to_iso_none_of_parse_fail (parse : String → Option String) (s : String)
    (hp : parse s = none) : to_iso parse (some (.str s)) = none := by
  simp only [to_iso]
  split
  · exact hp
  · rfl

/-- C1 (counterexample): normalization is not total.  On a raw overview
map whose bytes value is the non-numeric string "abc", row_from_overview
raises (the int() coercion fails) instead of defaulting byteSize to 0. -/
theorem row_from_overview_not_total :
    row_from_overview "g" 1 [("bytes", PyVal.str "abc")] [("bytes", "bytes")]
      (fun _ => none) = none := rfl

/-- C1 (amended): row_from_overview never raises provided the raw values
selected for bytes and for lines are each absent, falsy, or coercible to
an integer; in that case byteSize and lineCount default to 0 whenever the
raw value is absent or falsy, and dateUtc is absent whenever the raw date
is absent or falsy or its string fails to parse. -/
theorem row_from_overview_total_when_numeric_coercible
    (group : String) (artnum : Int) (ov : RawOv) (km : List (String × String))
    (parse : String → Option String)
    (hb : (pyToInt (pyOr (getField ov km "bytes") (.int 0))).isSome = true)
    (hl : (pyToInt (pyOr (getField ov km "lines") (.int 0))).isSome = true) :
    ∃ row, row_from_overview group artnum ov km parse = some row ∧
      ((getField ov km "bytes").all (fun v => !v.truthy) = true → row.bytes = 0) ∧
      ((getField ov km "lines").all (fun v => !v.truthy) = true → row.lines = 0) ∧
      (∀ s, getField ov km "date" = some (.str s) → parse s = none → row.date_utc = none) ∧
      ((getField ov km "date").all (fun v => !v.truthy) = true → row.date_utc = none) := by
  rcases Option.isSome_iff_exists.mp hb with ⟨b, hb2⟩
  rcases Option.isSome_iff_exists.mp hl with ⟨l, hl2⟩
  have hrow : row_from_overview group artnum ov km parse =
      some { message_id := getField ov km "message-id"
             group_name := group
             artnum := artnum
             subject := pyOr (getField ov km "subject") (.str "")
             from_addr := pyOr (getField ov km "from") (.str "")
             date_utc := to_iso parse (getField ov km "date")
             refs := getField ov km "references"
             bytes := b
             lines := l
             xref := getField ov km "xref" } := by
    simp only [row_from_overview, hb2, hl2]
  refine ⟨_, hrow, ?_, ?_, ?_, ?_⟩
  · intro habs
    show b = 0
    rw [pyOr_of_falsy _ _ habs] at hb2
    simpa [pyToInt] using hb2.symm
  · intro habs
    show l = 0
    rw [pyOr_of_falsy _ _ habs] at hl2
    simpa [pyToInt] using hl2.symm
  · intro s hd hp
    show to_iso parse (getField ov km "date") = none
    rw [hd]
    exact to_iso_none_of_parse_fail parse s hp
  · intro habs
    show to_iso parse (getField ov km "date") = none
    exact to_iso_none_of_falsy parse _ habs

/-- Witness for C1 at a concrete raw map: bytes is the numeric string
"12", lines is absent, and the date string "junk" fails to parse. -/
theorem row_from_overview_total_when_numeric_coercible_witness :
    ((pyToInt (pyOr (getField [("bytes", PyVal.str "12"), ("date", PyVal.str "junk")]
        [("bytes", "bytes"), ("lines", "lines"), ("date", "date")] "bytes") (.int 0))).isSome
      = true) ∧
    ((pyToInt (pyOr (getField [("bytes", PyVal.str "12"), ("date", PyVal.str "junk")]
        [("bytes", "bytes"), ("lines", "lines"), ("date", "date")] "lines") (.int 0))).isSome
      = true) ∧
    (∃ row, row_from_overview "g" 1 [("bytes", PyVal.str "12"), ("date", PyVal.str "junk")]
        [("bytes", "bytes"), ("lines", "lines"), ("date", "date")] (fun _ => none) = some row ∧
      ((getField [("bytes", PyVal.str "12"), ("date", PyVal.str "junk")]
          [("bytes", "bytes"), ("lines", "lines"), ("date", "date")] "bytes").all
            (fun v => !v.truthy) = true → row.bytes = 0) ∧
      ((getField [("bytes", PyVal.str "12"), ("date", PyVal.str "junk")]
          [("bytes", "bytes"), ("lines", "lines"), ("date", "date")] "lines").all
            (fun v => !v.truthy) = true → row.lines = 0) ∧
      (∀ s, getField [("bytes", PyVal.str "12"), ("date", PyVal.str "junk")]
          [("bytes", "bytes"), ("lines", "lines"), ("date", "date")] "date" = some (.str s) →
          (fun _ => (none : Option String)) s = none → row.date_utc = none) ∧
      ((getField [("bytes", PyVal.str "12"), ("date", PyVal.str "junk")]
          [("bytes", "bytes"), ("lines", "lines"), ("date", "date")] "date").all
            (fun v => !v.truthy) = true → row.date_utc = none)) :=
  ⟨rfl, rfl,
    row_from_overview_total_when_numeric_coercible "g" 1 _ _ _ rfl rfl⟩

/-! ## Age-window resolution (claims C6 and C7) -/

/-- C6: when the newest remote record is already older than max_days or
the oldest is already younger than min_days, find_article_range_by_dates
returns None, and get_article_range (with the day window configured and
no explicit bounds) then returns the passed-in bounds unchanged instead
of failing. -/
theorem age_window_out_of_range_falls_back
    (cfg : FilterConfig) (age : Int → Option ℚ) (first last : Int)
    (local_min local_max : Int) (mn mx : Int)
    (hnocfg : cfg.local_min = none)
    (hmn : cfg.min_days = some mn) (hmx : cfg.max_days = some mx)
    (hvalid : 0 < mn ∧ 0 < mx ∧ mn < mx)
    (hedge : (∃ d, age last = some d ∧ (mx : ℚ) < d) ∨
             (∃ d, age first = some d ∧ d < (mn : ℚ))) :
    find_article_range_by_dates age first last mn mx = none ∧
    get_article_range cfg age first last local_min local_max = (local_min, local_max) := by
  have hfind : find_article_range_by_dates age first last mn mx = none := by
    rcases hedge with ⟨d, hd, hlt⟩ | ⟨d, hd, hlt⟩
    · simp only [find_article_range_by_dates, hd]
      rw [if_pos hlt]
    · cases hLast : age last with
      | none =>
        simp only [find_article_range_by_dates, hLast, hd]
        rw [if_pos hlt]
      | some d2 =>
        by_cases h2 : (mx : ℚ) < d2
        · simp only [find_article_range_by_dates, hLast]
          rw [if_pos h2]
        · simp only [find_article_range_by_dates, hLast, hd]
          rw [if_neg h2, if_pos hlt]
  refine ⟨hfind, ?_⟩
  simp only [get_article_range, hnocfg, hmn, hmx, if_pos hvalid, hfind]

/-- Witness for C6: a remote whose newest article (number 5) is 50 days
old against a window of 10..20 days; resolution yields no range and the
caller keeps its bounds (7, 9). -/
theorem age_window_out_of_range_falls_back_witness :
    find_article_range_by_dates (fun i => if i = 5 then some (50 : ℚ) else none) 1 5 10 20
      = none ∧
    get_article_range ⟨none, none, some 10, some 20⟩
      (fun i => if i = 5 then some (50 : ℚ) else none) 1 5 7 9 = (7, 9) :=
  age_window_out_of_range_falls_back ⟨none, none, some 10, some 20⟩
    (fun i => if i = 5 then some (50 : ℚ) else none) 1 5 7 9 10 20
    rfl rfl rfl (by norm_num)
    (Or.inl ⟨50, by norm_num, by norm_num⟩)

/-- C7: whatever pair of boundary values the two binary searches return
(their raw order included), the caller forms the fetch range as
(min, max) of the two, so the resolved range always satisfies
low ≤ high. -/
theorem age_window_range_ordered
    (cfg : FilterConfig) (age : Int → Option ℚ) (first last : Int)
    (local_min local_max : Int) (mn mx : Int) (lo hi : Int) (a1 a2 : Option ℚ)
    (hnocfg : cfg.local_min = none)
    (hmn : cfg.min_days = some mn) (hmx : cfg.max_days = some mx)
    (hvalid : 0 < mn ∧ 0 < mx ∧ mn < mx)
    (hfind : find_article_range_by_dates age first last mn mx = some (lo, hi, a1, a2)) :
    get_article_range cfg age first last local_min local_max = (min lo hi, max lo hi) ∧
    min lo hi ≤ max lo hi := by
  refine ⟨?_, min_le_max⟩
  simp only [get_article_range, hnocfg, hmn, hmx, if_pos hvalid, hfind]

/-- Witness for C7 at a remote where every single-article probe misses:
both searches return their initial results first = 1 and last = 0, in
reversed order (1 > 0), and the resolved range is still the ordered
(min 1 0, max 1 0) = (0, 1). -/
theorem age_window_range_ordered_witness :
    get_article_range ⟨none, none, some 10, some 20⟩ (fun _ => none) 1 0 7 9
      = (min 1 0, max 1 0) ∧
    min (1 : Int) 0 ≤ max (1 : Int) 0 :=
  age_window_range_ordered ⟨none, none, some 10, some 20⟩ (fun _ => none) 1 0 7 9 10 20
    1 0 none none rfl rfl rfl (by norm_num)
    (by simp [find_article_range_by_dates, binary_search_date_boundary, binary_search_go])

/-! ## Chunked fetch merge determinism (claim C3) -/

theorem artnumLe_trans (a b c : FetchRow) :
    artnumLe a b = true → artnumLe b c = true → artnumLe a c = true := by
  simp only [artnumLe, decide_eq_true_eq]
  omega

theorem artnumLe_total (a b : FetchRow) : (artnumLe a b || artnumLe b a) = true := by
  simp only [artnumLe, Bool.or_eq_true, decide_eq_true_eq]
  omega

theorem mapM_rows_of_ok (parse : String → Option String) (r : Remote) (group : String)
    (K : List String) :
    ∀ l : List Nat,
      (∀ i ∈ l, ((r.ov i).all (fun o =>
          (row_from_overview group (i : Int) o (buildKeyMap K) parse).isSome)) = true) →
      (l.filterMap (fun i => (r.ov i).map (fun o => (i, o)))).mapM
          (fun p => row_from_overview group (p.1 : Int) p.2 (buildKeyMap K) parse)
        = some (l.filterMap (fun i =>
            (r.ov i).bind (fun o => row_from_overview group (i : Int) o (buildKeyMap K) parse))) := by
  intro l
  induction l with
  | nil => intro _; rfl
  | cons i t ih =>
    intro h
    have hi := h i (List.mem_cons_self i t)
    have ht := ih (fun j hj => h j (List.mem_cons_of_mem i hj))
    cases hov : r.ov i with
    | none =>
      simp only [List.filterMap_cons, hov, Option.map_none', Option.bind]
      exact ht
    | some o =>
      rw [hov] at hi
      rw [Option.all_some] at hi
      rcases Option.isSome_iff_exists.mp hi with ⟨row, hrow⟩
      simp only [List.filterMap_cons, hov, Option.map_some', Option.some_bind, List.mapM_cons,
        hrow, ht, Option.bind_some, Option.some_bind, Option.bind_eq_bind]
      rfl

theorem fetch_rows_xover_eq_pure (parse : String → Option String) (r : Remote) (group : String)
    (K : List String) (a b : Nat)
    (hK : ∀ i ∈ List.range' a (b + 1 - a),
      ((r.ov i).all (fun o => o.map Prod.fst == K)) = true)
    (hok : ∀ i ∈ List.range' a (b + 1 - a), ((r.ov i).all (fun o =>
      (row_from_overview group (i : Int) o (buildKeyMap K) parse).isSome)) = true) :
    fetch_rows_xover parse r group a b = some (pureRows parse r group K a b) := by
  cases hx : xover r a b with
  | nil =>
    have hnone : ∀ i ∈ List.range' a (b + 1 - a), r.ov i = none := by
      intro i hi
      have h2 := List.filterMap_eq_nil_iff.mp hx i hi
      cases ho : r.ov i with
      | none => rfl
      | some o => rw [ho] at h2; simp at h2
    unfold fetch_rows_xover
    rw [hx]
    unfold pureRows
    rw [List.filterMap_eq_nil_iff.mpr (fun i hi => by rw [hnone i hi]; rfl)]
  | cons hd tl =>
    obtain ⟨a0, ov0⟩ := hd
    have hmem : (a0, ov0) ∈ xover r a b := by rw [hx]; exact List.mem_cons_self _ _
    have hov0 : a0 ∈ List.range' a (b + 1 - a) ∧ r.ov a0 = some ov0 := by
      rcases List.mem_filterMap.mp hmem with ⟨i, hi, hmap⟩
      cases ho : r.ov i with
      | none => rw [ho] at hmap; simp at hmap
      | some o =>
        rw [ho] at hmap
        simp only [Option.map_some', Option.some_inj] at hmap
        cases hmap
        exact ⟨hi, ho⟩
    have hkeys : ov0.map Prod.fst = K := by
      have h3 := hK a0 hov0.1
      rw [hov0.2, Option.all_some] at h3
      exact eq_of_beq h3
    unfold fetch_rows_xover
    rw [hx]
    show (((a0, ov0) :: tl).mapM
        (fun p => row_from_overview group (p.1 : Int) p.2 (buildKeyMap (ov0.map Prod.fst)) parse))
      = some (pureRows parse r group K a b)
    rw [hkeys, ← hx]
    show ((xover r a b).mapM
        (fun p => row_from_overview group (p.1 : Int) p.2 (buildKeyMap K) parse))
      = some (pureRows parse r group K a b)
    exact mapM_rows_of_ok parse r group K _ hok

theorem pureRows_chunks (parse : String → Option String) (r : Remote) (group : String)
    (K : List String) (chunks : List (Nat × Nat)) (lo hi : Nat)
    (hcover : chunksCover chunks lo hi) :
    (chunks.map (fun c => pureRows parse r group K c.1 c.2)).flatten
      = pureRows parse r group K lo hi := by
  unfold chunksCover at hcover
  unfold pureRows chunkRange at *
  rw [show (chunks.map (fun c =>
        (List.range' c.1 (c.2 + 1 - c.1)).filterMap (fun i => (r.ov i).bind
          (fun o => row_from_overview group (i : Int) o (buildKeyMap K) parse))))
      = ((chunks.map (fun c => List.range' c.1 (c.2 + 1 - c.1))).map
          (List.filterMap (fun i => (r.ov i).bind
            (fun o => row_from_overview group (i : Int) o (buildKeyMap K) parse))))
    from by rw [List.map_map]; rfl]
  rw [← List.filterMap_flatten, hcover]

theorem filterMap_id_map_of_some (f : (Nat × Nat) → Option (List FetchRow))
    (g : (Nat × Nat) → List FetchRow) :
    ∀ l : List (Nat × Nat), (∀ c ∈ l, f c = some (g c)) →
      (l.map f).filterMap id = l.map g := by
  intro l
  induction l with
  | nil => intro _; rfl
  | cons c t ih =>
    intro h
    simp only [List.map_cons, List.filterMap_cons, h c (List.mem_cons_self c t), id]
    rw [ih (fun d hd => h d (List.mem_cons_of_mem c hd))]

/-- C3: for any sub-ranges that exactly cover the requested range with at
most chunk_size articles each, and any completion order of their fetches,
if every article of the range carries one schema and normalizes without
raising (no fetch fails), then the merged output of the chunked fetcher
is sorted ascending by sequence number and is a permutation of the single
unpartitioned fetch over the same range. -/
theorem fetch_chunked_sorted_and_complete
    (parse : String → Option String) (r : Remote) (group : String) (K : List String)
    (lo hi chunk_size : Nat) (chunks order : List (Nat × Nat))
    (hschema : schemaOk r K lo hi = true)
    (hrows : rowsOk parse r group K lo hi = true)
    (hcover : chunksCover chunks lo hi)
    (hsize : ∀ c ∈ chunks, c.2 + 1 - c.1 ≤ chunk_size)
    (horder : order.Perm chunks) :
    ∃ full, fetch_rows_xover parse r group lo hi = some full ∧
      List.Sorted (fun a b : FetchRow => a.artnum ≤ b.artnum)
        (runChunksInOrder parse r group order) ∧
      (runChunksInOrder parse r group order).Perm full := by
  have hK0 : ∀ i ∈ List.range' lo (hi + 1 - lo),
      ((r.ov i).all (fun o => o.map Prod.fst == K)) = true :=
    fun i hi2 => List.all_eq_true.mp hschema i hi2
  have hok0 : ∀ i ∈ List.range' lo (hi + 1 - lo), ((r.ov i).all (fun o =>
      (row_from_overview group (i : Int) o (buildKeyMap K) parse).isSome)) = true :=
    fun i hi2 => List.all_eq_true.mp hrows i hi2
  have hsub : ∀ c ∈ chunks, ∀ i ∈ List.range' c.1 (c.2 + 1 - c.1),
      i ∈ List.range' lo (hi + 1 - lo) := by
    intro c hc i hi2
    have hmem : i ∈ (chunks.map chunkRange).flatten :=
      List.mem_flatten.mpr ⟨chunkRange c, List.mem_map_of_mem _ hc, hi2⟩
    rwa [hcover] at hmem
  have hfetchc : ∀ c ∈ chunks, fetch_rows_xover parse r group c.1 c.2
      = some (pureRows parse r group K c.1 c.2) :=
    fun c hc => fetch_rows_xover_eq_pure parse r group K c.1 c.2
      (fun i hi2 => hK0 i (hsub c hc i hi2)) (fun i hi2 => hok0 i (hsub c hc i hi2))
  have hfull : fetch_rows_xover parse r group lo hi
      = some (pureRows parse r group K lo hi) :=
    fetch_rows_xover_eq_pure parse r group K lo hi hK0 hok0
  refine ⟨_, hfull, ?_, ?_⟩
  · have hp := pySort_sorted artnumLe artnumLe_trans artnumLe_total
      (((order.map (fun c => fetch_rows_xover parse r group c.1 c.2)).filterMap id).flatten)
    exact hp.imp (fun hab => by
      simpa [artnumLe, decide_eq_true_eq] using hab)
  · unfold runChunksInOrder
    rw [filterMap_id_map_of_some _ (fun c => pureRows parse r group K c.1 c.2) order
      (fun c hc => hfetchc c (horder.mem_iff.mp hc))]
    have h2 : (order.map (fun c => pureRows parse r group K c.1 c.2)).Perm
        (chunks.map (fun c => pureRows parse r group K c.1 c.2)) := horder.map _
    have h3 := h2.flatten
    rw [pureRows_chunks parse r group K chunks lo hi hcover] at h3
    exact (pySort_perm artnumLe _).trans h3

/-- Witness for C3: three articles 1..3 with one shared schema, split
into the sub-ranges (1,2) and (3,3) of size at most 2, completing in the
order [(3,3), (1,2)]. -/
theorem fetch_chunked_sorted_and_complete_witness :
    ([((3 : Nat), (3 : Nat)), (1, 2)] : List (Nat × Nat)).Perm [(1, 2), (3, 3)] ∧
    ∃ full,
      fetch_rows_xover (fun _ => none)
        ⟨3, 1, 3, fun i => if i = 1 then some [("Subject", PyVal.str "s1")]
          else if i = 2 then some [("Subject", PyVal.str "s2")]
          else if i = 3 then some [("Subject", PyVal.str "s3")] else none⟩ "g" 1 3
        = some full ∧
      List.Sorted (fun a b : FetchRow => a.artnum ≤ b.artnum)
        (runChunksInOrder (fun _ => none)
          ⟨3, 1, 3, fun i => if i = 1 then some [("Subject", PyVal.str "s1")]
            else if i = 2 then some [("Subject", PyVal.str "s2")]
            else if i = 3 then some [("Subject", PyVal.str "s3")] else none⟩ "g"
          [(3, 3), (1, 2)]) ∧
      (runChunksInOrder (fun _ => none)
        ⟨3, 1, 3, fun i => if i = 1 then some [("Subject", PyVal.str "s1")]
          else if i = 2 then some [("Subject", PyVal.str "s2")]
          else if i = 3 then some [("Subject", PyVal.str "s3")] else none⟩ "g"
        [(3, 3), (1, 2)]).Perm full :=
  ⟨by decide,
   fetch_chunked_sorted_and_complete (fun _ => none)
     ⟨3, 1, 3, fun i => if i = 1 then some [("Subject", PyVal.str "s1")]
       else if i = 2 then some [("Subject", PyVal.str "s2")]
       else if i = 3 then some [("Subject", PyVal.str "s3")] else none⟩ "g" ["Subject"]
     1 3 2 [(1, 2), (3, 3)] [(3, 3), (1, 2)]
     (by decide) (by decide) (by unfold chunksCover chunkRange; decide) (by decide) (by decide)⟩

/-! ## Part-counter extraction (claim C5) -/

theorem isCloseBr_not_digit (c : Char) (h : isCloseBr c = true) : c.isDigit = false := by
  simp only [isCloseBr, Bool.or_eq_true, beq_iff_eq] at h
  rcases h with (h | h) | h <;> subst h <;> decide

theorem pySpace_not_digit (c : Char) (h : pySpace c = true) : c.isDigit = false := by
  simp only [pySpace, Bool.or_eq_true, beq_iff_eq] at h
  rcases h with ((((h | h) | h) | h) | h) | h <;> subst h <;> decide

theorem digit_not_pySpace (c : Char) (h : c.isDigit = true) : pySpace c = false := by
  cases hs : pySpace c with
  | false => rfl
  | true => rw [pySpace_not_digit c hs] at h; exact absurd h (by decide)

theorem pySpace_toLower_self (c : Char) (h : pySpace c = true) : c.toLower = c := by
  simp only [pySpace, Bool.or_eq_true, beq_iff_eq] at h
  rcases h with ((((h | h) | h) | h) | h) | h <;> subst h <;> decide

theorem digit_isWordChar (c : Char) (h : c.isDigit = true) : isWordChar c = true := by
  simp [isWordChar, Char.isAlphanum, h]

theorem not_word_not_digit (c : Char) (h : isWordChar c = false) : c.isDigit = false := by
  cases hd : c.isDigit with
  | false => rfl
  | true => rw [digit_isWordChar c hd] at h; exact absurd h (by decide)

theorem takeWhile_all_append (p : α → Bool) :
    ∀ (xs rest : List α), (∀ x ∈ xs, p x = true) →
      (xs ++ rest).takeWhile p = xs ++ rest.takeWhile p ∧
      (xs ++ rest).dropWhile p = rest.dropWhile p := by
  intro xs
  induction xs with
  | nil => intro rest _; exact ⟨rfl, rfl⟩
  | cons x t ih =>
    intro rest h
    have hx := h x (List.mem_cons_self x t)
    have ht := ih rest (fun y hy => h y (List.mem_cons_of_mem x hy))
    simp only [List.cons_append, List.takeWhile_cons, List.dropWhile_cons, hx, if_pos]
    exact ⟨by rw [ht.1], by rw [ht.2]⟩

theorem takeWhile_stops (p : α → Bool) (xs : List α) (y : α) (ys : List α)
    (hall : ∀ x ∈ xs, p x = true) (hy : p y = false) :
    (xs ++ y :: ys).takeWhile p = xs ∧ (xs ++ y :: ys).dropWhile p = y :: ys := by
  rcases takeWhile_all_append p xs (y :: ys) hall with ⟨h1, h2⟩
  rw [h1, h2]
  constructor
  · rw [List.takeWhile_cons, hy]
    simp
  · rw [List.dropWhile_cons, hy]
    simp

/-- A successful anchored bracket match decomposes the text as the
pattern requires. -/
theorem matchBracketAt_some_decomp (pair : Char → Char → Bool) (cs : List Char)
    (n m : Nat) (rest : List Char) (h : matchBracketAt pair cs = some (n, m, rest)) :
    ∃ o d1 d2 c, cs = o :: (d1 ++ '/' :: (d2 ++ c :: rest)) ∧
      isOpenBr o = true ∧ pair o c = true ∧
      d1 ≠ [] ∧ (∀ x ∈ d1, x.isDigit = true) ∧
      d2 ≠ [] ∧ (∀ x ∈ d2, x.isDigit = true) := by
  match cs with
  | [] => simp [matchBracketAt] at h
  | o :: rest0 =>
    simp only [matchBracketAt] at h
    split at h
    case isFalse => exact absurd h (by simp)
    case isTrue hopen =>
      split at h
      case isTrue => exact absurd h (by simp)
      case isFalse hne1 =>
        split at h
        case h_2 => exact absurd h (by simp)
        case h_1 r2 heq1 =>
          split at h
          case isTrue => exact absurd h (by simp)
          case isFalse hne2 =>
            split at h
            case h_2 => exact absurd h (by simp)
            case h_1 c r4 heq2 =>
              split at h
              case isFalse => exact absurd h (by simp)
              case isTrue hp =>
                cases h
                have er2 : r2 = r2.takeWhile Char.isDigit ++ c :: rest := by
                  conv_lhs => rw [← List.takeWhile_append_dropWhile Char.isDigit r2]
                  rw [heq2]
                have er0 : rest0 = rest0.takeWhile Char.isDigit ++ '/' :: r2 := by
                  conv_lhs => rw [← List.takeWhile_append_dropWhile Char.isDigit rest0]
                  rw [heq1]
                refine ⟨o, rest0.takeWhile Char.isDigit, r2.takeWhile Char.isDigit, c,
                  ?_, hopen, hp, ?_, fun x hx => List.mem_takeWhile_imp hx,
                  ?_, fun x hx => List.mem_takeWhile_imp hx⟩
                · conv_lhs => rw [er0, er2]
                · intro hcon
                  exact hne1 (by rw [hcon]; rfl)
                · intro hcon
                  exact hne2 (by rw [hcon]; rfl)

/-- Conversely, text shaped as the bracket pattern matches at its first
character. -/
theorem matchBracketAt_of_decomp (pair : Char → Char → Bool)
    (hpair : ∀ o c, pair o c = true → isCloseBr c = true)
    (o : Char) (d1 d2 : List Char) (c : Char) (post : List Char)
    (ho : isOpenBr o = true) (hp : pair o c = true)
    (h1 : d1 ≠ []) (h1d : ∀ x ∈ d1, x.isDigit = true)
    (h2 : d2 ≠ []) (h2d : ∀ x ∈ d2, x.isDigit = true) :
    matchBracketAt pair (o :: (d1 ++ '/' :: (d2 ++ c :: post)))
      = some (digitsToNat 0 d1, digitsToNat 0 d2, post) := by
  have hslash : Char.isDigit '/' = false := by decide
  have hclose : Char.isDigit c = false := isCloseBr_not_digit c (hpair o c hp)
  rcases takeWhile_stops Char.isDigit d1 '/' (d2 ++ c :: post) h1d hslash with ⟨ht1, hd1⟩
  rcases takeWhile_stops Char.isDigit d2 c post h2d hclose with ⟨ht2, hd2⟩
  have h1e : d1.isEmpty = false := List.isEmpty_eq_false.mpr h1
  have h2e : d2.isEmpty = false := List.isEmpty_eq_false.mpr h2
  simp only [matchBracketAt, ho, ht1, hd1, ht2, hd2, h1e, h2e, hp, if_true, if_false,
    Bool.false_eq_true, ite_false, ite_true]

/-- A successful anchored part-phrase match decomposes the text as the
pattern requires. -/
theorem matchPartAt_some_decomp (prev : Option Char) (cs : List Char)
    (n m : Nat) (lc : Char) (rest : List Char)
    (h : matchPartAt prev cs = some (n, m, lc, rest)) :
    boundaryOk prev = true ∧
    ∃ t1 w1 d1 w2 t2 w3 d2,
      cs = t1 ++ (w1 ++ (d1 ++ (w2 ++ (t2 ++ (w3 ++ (d2 ++ rest)))))) ∧
      t1.map Char.toLower = "part".toList ∧
      t2.map Char.toLower = "of".toList ∧
      w1 ≠ [] ∧ (∀ x ∈ w1, pySpace x = true) ∧
      w2 ≠ [] ∧ (∀ x ∈ w2, pySpace x = true) ∧
      w3 ≠ [] ∧ (∀ x ∈ w3, pySpace x = true) ∧
      d1 ≠ [] ∧ (∀ x ∈ d1, x.isDigit = true) ∧
      d2 ≠ [] ∧ (∀ x ∈ d2, x.isDigit = true) ∧
      boundaryAfter rest = true := by
  match cs with
  | [] => simp [matchPartAt] at h
  | [c1] => simp [matchPartAt] at h
  | [c1, c2] => simp [matchPartAt] at h
  | [c1, c2, c3] => simp [matchPartAt] at h
  | p :: a :: rr :: tt :: rest0 =>
    simp only [matchPartAt] at h
    split at h
    case isTrue => exact absurd h (by simp)
    case isFalse hbnd =>
      have hb : boundaryOk prev = true := by
        cases hx : boundaryOk prev with
        | true => rfl
        | false => exact absurd (by rw [hx]; rfl) hbnd
      refine ⟨hb, ?_⟩
      split at h
      case isFalse => exact absurd h (by simp)
      case isTrue hlet =>
        split at h
        case isTrue => exact absurd h (by simp)
        case isFalse hw1 =>
          split at h
          case isTrue => exact absurd h (by simp)
          case isFalse hd1 =>
            split at h
            case isTrue => exact absurd h (by simp)
            case isFalse hw2 =>
              split at h
              case h_2 => exact absurd h (by simp)
              case h_1 o f r4 heq3 =>
                split at h
                case isFalse => exact absurd h (by simp)
                case isTrue hlet2 =>
                  split at h
                  case isTrue => exact absurd h (by simp)
                  case isFalse hw3 =>
                    split at h
                    case isTrue => exact absurd h (by simp)
                    case isFalse hd2 =>
                      split at h
                      case isFalse => exact absurd h (by simp)
                      case isTrue hba =>
                        cases h
                        simp only [Bool.and_eq_true, beq_iff_eq] at hlet hlet2
                        obtain ⟨⟨⟨hp1, hp2⟩, hp3⟩, hp4⟩ := hlet
                        obtain ⟨hq1, hq2⟩ := hlet2
                        refine ⟨[p, a, rr, tt],
                          rest0.takeWhile pySpace,
                          (rest0.dropWhile pySpace).takeWhile Char.isDigit,
                          ((rest0.dropWhile pySpace).dropWhile Char.isDigit).takeWhile pySpace,
                          [o, f],
                          r4.takeWhile pySpace,
                          (r4.dropWhile pySpace).takeWhile Char.isDigit,
                          ?_, ?_, ?_,
                          fun hcon => hw1 (by rw [hcon]; rfl),
                          fun x hx => List.mem_takeWhile_imp hx,
                          fun hcon => hw2 (by rw [hcon]; rfl),
                          fun x hx => List.mem_takeWhile_imp hx,
                          fun hcon => hw3 (by rw [hcon]; rfl),
                          fun x hx => List.mem_takeWhile_imp hx,
                          fun hcon => hd1 (by rw [hcon]; rfl),
                          fun x hx => List.mem_takeWhile_imp hx,
                          fun hcon => hd2 (by rw [hcon]; rfl),
                          fun x hx => List.mem_takeWhile_imp hx,
                          hba⟩
                        · have A4 : r4.dropWhile pySpace =
                              (r4.dropWhile pySpace).takeWhile Char.isDigit ++
                              ((r4.dropWhile pySpace).dropWhile Char.isDigit) :=
                            (List.takeWhile_append_dropWhile _ _).symm
                          have A3 : r4 = r4.takeWhile pySpace ++ r4.dropWhile pySpace :=
                            (List.takeWhile_append_dropWhile _ _).symm
                          have A2 : (rest0.dropWhile pySpace).dropWhile Char.isDigit =
                              ((rest0.dropWhile pySpace).dropWhile Char.isDigit).takeWhile pySpace
                              ++ (o :: f :: r4) := by
                            conv_lhs => rw [← List.takeWhile_append_dropWhile pySpace
                              ((rest0.dropWhile pySpace).dropWhile Char.isDigit)]
                            rw [heq3]
                          have A1 : rest0.dropWhile pySpace =
                              (rest0.dropWhile pySpace).takeWhile Char.isDigit ++
                              ((rest0.dropWhile pySpace).dropWhile Char.isDigit) :=
                            (List.takeWhile_append_dropWhile _ _).symm
                          have A0 : rest0 = rest0.takeWhile pySpace ++ rest0.dropWhile pySpace :=
                            (List.takeWhile_append_dropWhile _ _).symm
                          show p :: a :: rr :: tt :: rest0 = _
                          conv_lhs => rw [A0, A1, A2, A3, A4]
                          simp
                        · simp only [List.map_cons, List.map_nil, hp1, hp2, hp3, hp4]
                          rfl
                        · simp only [List.map_cons, List.map_nil, hq1, hq2]
                          rfl

theorem spanAppend (p : α → Bool) (xs rest : List α)
    (hall : ∀ x ∈ xs, p x = true)
    (hstop : ∀ y t, rest = y :: t → p y = false) :
    (xs ++ rest).takeWhile p = xs ∧ (xs ++ rest).dropWhile p = rest := by
  rcases takeWhile_all_append p xs rest hall with ⟨h1, h2⟩
  cases rest with
  | nil => rw [h1, h2]; simp
  | cons y t =>
    have hy := hstop y t rfl
    rw [h1, h2, List.takeWhile_cons, List.dropWhile_cons, hy]
    simp

/-- Conversely, text shaped as the part-phrase pattern matches at its
start. -/
theorem matchPartAt_of_decomp (prev : Option Char)
    (t1 w1 d1 w2 t2 w3 d2 post : List Char)
    (hb : boundaryOk prev = true)
    (ht1 : t1.map Char.toLower = "part".toList)
    (ht2 : t2.map Char.toLower = "of".toList)
    (hw1 : w1 ≠ []) (hw1s : ∀ x ∈ w1, pySpace x = true)
    (hw2 : w2 ≠ []) (hw2s : ∀ x ∈ w2, pySpace x = true)
    (hw3 : w3 ≠ []) (hw3s : ∀ x ∈ w3, pySpace x = true)
    (hd1 : d1 ≠ []) (hd1d : ∀ x ∈ d1, x.isDigit = true)
    (hd2 : d2 ≠ []) (hd2d : ∀ x ∈ d2, x.isDigit = true)
    (hba : boundaryAfter post = true) :
    (matchPartAt prev
      (t1 ++ (w1 ++ (d1 ++ (w2 ++ (t2 ++ (w3 ++ (d2 ++ post)))))))).isSome = true := by
  have hpart : "part".toList = ['p', 'a', 'r', 't'] := rfl
  have hof : "of".toList = ['o', 'f'] := rfl
  rw [hpart] at ht1
  rw [hof] at ht2
  match t1, ht1 with
  | [], ht1 => simp at ht1
  | [x1], ht1 => simp at ht1
  | [x1, x2], ht1 => simp at ht1
  | [x1, x2, x3], ht1 => simp at ht1
  | x1 :: x2 :: x3 :: x4 :: x5 :: tr, ht1 =>
    have hlen := congrArg List.length ht1
    simp at hlen
  | [p0, a0, r0, t0], ht1 =>
    match t2, ht2 with
    | [], ht2 => simp at ht2
    | [y1], ht2 => simp at ht2
    | y1 :: y2 :: y3 :: t2r, ht2 =>
      have hlen := congrArg List.length ht2
      simp at hlen
    | [o1, f1], ht2 =>
      simp only [List.map_cons, List.map_nil, List.cons.injEq, and_true] at ht1 ht2
      obtain ⟨e1, e2, e3, e4⟩ := ht1
      obtain ⟨e5, e6⟩ := ht2
      rcases List.exists_cons_of_ne_nil hd1 with ⟨dh1, dt1, hd1e⟩
      rcases List.exists_cons_of_ne_nil hd2 with ⟨dh2, dt2, hd2e⟩
      rcases List.exists_cons_of_ne_nil hw2 with ⟨wh2, wt2, hw2e⟩
      simp only [List.cons_append, List.nil_append]
      have S1 := spanAppend pySpace w1
        (d1 ++ (w2 ++ (o1 :: f1 :: (w3 ++ (d2 ++ post))))) hw1s
        (by
          intro y t heq
          rw [hd1e, List.cons_append] at heq
          cases heq
          exact digit_not_pySpace dh1 (hd1d dh1 (by rw [hd1e]; exact List.mem_cons_self _ _)))
      have S2 := spanAppend Char.isDigit d1
        (w2 ++ (o1 :: f1 :: (w3 ++ (d2 ++ post)))) hd1d
        (by
          intro y t heq
          rw [hw2e, List.cons_append] at heq
          cases heq
          exact pySpace_not_digit wh2 (hw2s wh2 (by rw [hw2e]; exact List.mem_cons_self _ _)))
      have ho1 : pySpace o1 = false := by
        cases hx : pySpace o1 with
        | false => rfl
        | true =>
          have h6 := pySpace_toLower_self o1 hx
          rw [h6] at e5
          rw [e5] at hx
          exact absurd hx (by decide)
      have S3 := spanAppend pySpace w2
        (o1 :: f1 :: (w3 ++ (d2 ++ post))) hw2s
        (by intro y t heq; cases heq; exact ho1)
      have S4 := spanAppend pySpace w3 (d2 ++ post) hw3s
        (by
          intro y t heq
          rw [hd2e, List.cons_append] at heq
          cases heq
          exact digit_not_pySpace dh2 (hd2d dh2 (by rw [hd2e]; exact List.mem_cons_self _ _)))
      have S5 := spanAppend Char.isDigit d2 post hd2d
        (by
          intro y t heq
          rw [heq] at hba
          simp only [boundaryAfter] at hba
          exact not_word_not_digit y (by
            cases hw : isWordChar y with
            | false => rfl
            | true => rw [hw] at hba; exact absurd hba (by decide)))
      have hw1e : w1.isEmpty = false := List.isEmpty_eq_false.mpr hw1
      have hw2ee : w2.isEmpty = false := List.isEmpty_eq_false.mpr hw2
      have hw3e : w3.isEmpty = false := List.isEmpty_eq_false.mpr hw3
      have hd1ee : d1.isEmpty = false := List.isEmpty_eq_false.mpr hd1
      have hd2ee : d2.isEmpty = false := List.isEmpty_eq_false.mpr hd2
      simp only [matchPartAt, hb, Bool.not_true, Bool.false_eq_true, if_false,
        e1, e2, e3, e4, e5, e6, beq_self_eq_true, Bool.and_self, Bool.and_true, if_true,
        S1.1, S1.2, S2.1, S2.2, S3.1, S3.2, S4.1, S4.2, S5.1, S5.2,
        hw1e, hw2ee, hw3e, hd1ee, hd2ee, hba, ite_false, ite_true, Option.isSome_some]

theorem containsBr_nil (pair : Char → Char → Bool) : ¬ ContainsBracketForm pair [] := by
  rintro ⟨pre, o, d1, d2, c, post, heq, -⟩
  cases pre <;> simp at heq

theorem containsBr_cons (pair : Char → Char → Bool)
    (hpair : ∀ o c, pair o c = true → isCloseBr c = true) (c0 : Char) (t : List Char)
    (hm : matchBracketAt pair (c0 :: t) = none) :
    ContainsBracketForm pair (c0 :: t) ↔ ContainsBracketForm pair t := by
  constructor
  · rintro ⟨pre, o, d1, d2, c, post, heq, ho, hp, h1, h1d, h2, h2d⟩
    cases pre with
    | nil =>
      simp only [List.nil_append, List.cons.injEq] at heq
      obtain ⟨rfl, rfl⟩ := heq
      rw [matchBracketAt_of_decomp pair hpair c0 d1 d2 c post ho hp h1 h1d h2 h2d] at hm
      exact absurd hm (by simp)
    | cons p pre2 =>
      simp only [List.cons_append, List.cons.injEq] at heq
      exact ⟨pre2, o, d1, d2, c, post, heq.2, ho, hp, h1, h1d, h2, h2d⟩
  · rintro ⟨pre, o, d1, d2, c, post, heq, ho, hp, h1, h1d, h2, h2d⟩
    exact ⟨c0 :: pre, o, d1, d2, c, post, by rw [List.cons_append, heq], ho, hp,
      h1, h1d, h2, h2d⟩

theorem searchBracket_isSome_iff (pair : Char → Char → Bool)
    (hpair : ∀ o c, pair o c = true → isCloseBr c = true) :
    ∀ cs, (searchBracket pair cs).isSome = true ↔ ContainsBracketForm pair cs := by
  intro cs
  induction cs with
  | nil =>
    constructor
    · intro h; simp [searchBracket] at h
    · intro h; exact absurd h (containsBr_nil pair)
  | cons c0 t ih =>
    cases hm : matchBracketAt pair (c0 :: t) with
    | some val =>
      obtain ⟨n, m, r⟩ := val
      constructor
      · intro _
        rcases matchBracketAt_some_decomp pair _ n m r hm with
          ⟨o, d1, d2, c, heq, ho, hp, h1, h1d, h2, h2d⟩
        exact ⟨[], o, d1, d2, c, r, by rw [List.nil_append]; exact heq, ho, hp,
          h1, h1d, h2, h2d⟩
      · intro _
        simp only [searchBracket, hm, Option.isSome_some]
    | none =>
      have hstep : searchBracket pair (c0 :: t) = searchBracket pair t := by
        simp only [searchBracket, hm]
      rw [hstep]
      exact ih.trans (containsBr_cons pair hpair c0 t hm).symm

theorem lastCharOr_cons (prev : Option Char) (c0 : Char) (pre : List Char) :
    lastCharOr prev (c0 :: pre) = lastCharOr (some c0) pre := by
  cases pre with
  | nil => rfl
  | cons p2 t2 =>
    simp only [lastCharOr, List.getLast?_cons_cons]
    cases hx : (p2 :: t2).getLast? with
    | some c => rfl
    | none => exact absurd (List.getLast?_eq_none_iff.mp hx) (by simp)

theorem containsPart_nil (prev : Option Char) : ¬ ContainsPartToken prev [] := by
  rintro ⟨pre, t1, w1, d1, w2, t2, w3, d2, post, heq, ht1, -⟩
  have hpre : pre = [] ∧ t1 = [] := by
    rcases List.append_eq_nil.mp heq.symm with ⟨h1, h2⟩
    rcases List.append_eq_nil.mp h2 with ⟨h3, -⟩
    exact ⟨h1, h3⟩
  rw [hpre.2] at ht1
  simp at ht1

theorem containsPart_cons (prev : Option Char) (c0 : Char) (t : List Char)
    (hm : matchPartAt prev (c0 :: t) = none) :
    ContainsPartToken prev (c0 :: t) ↔ ContainsPartToken (some c0) t := by
  constructor
  · rintro ⟨pre, t1, w1, d1, w2, t2, w3, d2, post, heq, ht1, ht2, hw1, hw1s, hw2, hw2s,
      hw3, hw3s, hd1, hd1d, hd2, hd2d, hbnd, hba⟩
    cases pre with
    | nil =>
      simp only [List.nil_append] at heq
      have hb0 : boundaryOk prev = true := by
        have : lastCharOr prev ([] : List Char) = prev := rfl
        rwa [this] at hbnd
      have hsome := matchPartAt_of_decomp prev t1 w1 d1 w2 t2 w3 d2 post hb0 ht1 ht2
        hw1 hw1s hw2 hw2s hw3 hw3s hd1 hd1d hd2 hd2d hba
      rw [← heq, hm] at hsome
      exact absurd hsome (by simp)
    | cons p pre2 =>
      simp only [List.cons_append, List.cons.injEq] at heq
      refine ⟨pre2, t1, w1, d1, w2, t2, w3, d2, post, heq.2, ht1, ht2, hw1, hw1s,
        hw2, hw2s, hw3, hw3s, hd1, hd1d, hd2, hd2d, ?_, hba⟩
      have hp0 : p = c0 := heq.1.symm
      rw [hp0] at hbnd
      rwa [lastCharOr_cons prev c0 pre2] at hbnd
  · rintro ⟨pre, t1, w1, d1, w2, t2, w3, d2, post, heq, ht1, ht2, hw1, hw1s, hw2, hw2s,
      hw3, hw3s, hd1, hd1d, hd2, hd2d, hbnd, hba⟩
    refine ⟨c0 :: pre, t1, w1, d1, w2, t2, w3, d2, post, by rw [List.cons_append, heq],
      ht1, ht2, hw1, hw1s, hw2, hw2s, hw3, hw3s, hd1, hd1d, hd2, hd2d, ?_, hba⟩
    rwa [lastCharOr_cons prev c0 pre]

theorem searchPart_isSome_iff :
    ∀ (cs : List Char) (prev : Option Char),
      (searchPart prev cs).isSome = true ↔ ContainsPartToken prev cs := by
  intro cs
  induction cs with
  | nil =>
    intro prev
    constructor
    · intro h; simp [searchPart] at h
    · intro h; exact absurd h (containsPart_nil prev)
  | cons c0 t ih =>
    intro prev
    cases hm : matchPartAt prev (c0 :: t) with
    | some val =>
      obtain ⟨n, m, lc, r⟩ := val
      constructor
      · intro _
        rcases matchPartAt_some_decomp prev _ n m lc r hm with
          ⟨hb, t1, w1, d1, w2, t2, w3, d2, heq, ht1, ht2, hw1, hw1s, hw2, hw2s,
            hw3, hw3s, hd1, hd1d, hd2, hd2d, hba⟩
        exact ⟨[], t1, w1, d1, w2, t2, w3, d2, r, by rw [List.nil_append]; exact heq,
          ht1, ht2, hw1, hw1s, hw2, hw2s, hw3, hw3s, hd1, hd1d, hd2, hd2d, hb, hba⟩
      · intro _
        simp only [searchPart, hm, Option.isSome_some]
    | none =>
      have hstep : searchPart prev (c0 :: t) = searchPart (some c0) t := by
        simp only [searchPart, hm]
      rw [hstep]
      exact (ih (some c0)).trans (containsPart_cons prev c0 t hm).symm

theorem finditerBracketGo_eq_nil_iff (pair : Char → Char → Bool) :
    ∀ (fuel : Nat) (cs : List Char), cs.length ≤ fuel →
      (finditerBracketGo pair fuel cs = [] ↔ searchBracket pair cs = none) := by
  intro fuel
  induction fuel with
  | zero =>
    intro cs hlen
    have : cs = [] := List.length_eq_zero.mp (Nat.le_zero.mp hlen)
    subst this
    simp [finditerBracketGo, searchBracket]
  | succ f ih =>
    intro cs hlen
    cases cs with
    | nil => simp [finditerBracketGo, searchBracket]
    | cons c0 t =>
      cases hm : matchBracketAt pair (c0 :: t) with
      | some val =>
        obtain ⟨n, m, r⟩ := val
        simp only [finditerBracketGo, searchBracket, hm]
        constructor
        · intro h; exact absurd h (by simp)
        · intro h; exact absurd h (by simp)
      | none =>
        simp only [finditerBracketGo, searchBracket, hm]
        exact ih t (by simpa using Nat.le_of_succ_le_succ (by simpa using hlen))

theorem finditerBracket_eq_nil_iff (pair : Char → Char → Bool) (cs : List Char) :
    finditerBracket pair cs = [] ↔ searchBracket pair cs = none :=
  finditerBracketGo_eq_nil_iff pair cs.length cs (Nat.le_refl _)

theorem finditerPartGo_eq_nil_iff :
    ∀ (fuel : Nat) (prev : Option Char) (cs : List Char), cs.length ≤ fuel →
      (finditerPartGo fuel prev cs = [] ↔ searchPart prev cs = none) := by
  intro fuel
  induction fuel with
  | zero =>
    intro prev cs hlen
    have : cs = [] := List.length_eq_zero.mp (Nat.le_zero.mp hlen)
    subst this
    simp [finditerPartGo, searchPart]
  | succ f ih =>
    intro prev cs hlen
    cases cs with
    | nil => simp [finditerPartGo, searchPart]
    | cons c0 t =>
      cases hm : matchPartAt prev (c0 :: t) with
      | some val =>
        obtain ⟨n, m, lc, r⟩ := val
        simp only [finditerPartGo, searchPart, hm]
        constructor
        · intro h; exact absurd h (by simp)
        · intro h; exact absurd h (by simp)
      | none =>
        simp only [finditerPartGo, searchPart, hm]
        exact ih (some c0) t (by simpa using Nat.le_of_succ_le_succ (by simpa using hlen))

theorem finditerPart_eq_nil_iff (prev : Option Char) (cs : List Char) :
    finditerPart prev cs = [] ↔ searchPart prev cs = none :=
  finditerPartGo_eq_nil_iff cs.length prev cs (Nat.le_refl _)

theorem anyBracketPair_close (o c : Char) (h : anyBracketPair o c = true) :
    isCloseBr c = true := h

theorem strictBracketPair_close (o c : Char) (h : strictBracketPair o c = true) :
    isCloseBr c = true := by
  simp only [strictBracketPair, Bool.or_eq_true, Bool.and_eq_true, beq_iff_eq] at h
  rcases h with (⟨-, h⟩ | ⟨-, h⟩) | ⟨-, h⟩ <;> subst h <;> decide

theorem extract_nm_leftmost_isSome_iff (s : String) :
    (extract_nm_leftmost s).isSome = true ↔ ContainsTokenAny s := by
  unfold extract_nm_leftmost ContainsTokenAny
  cases hb : searchBracket anyBracketPair s.toList with
  | some nm =>
    simp only [Option.isSome_some]
    constructor
    · intro _
      left
      exact (searchBracket_isSome_iff anyBracketPair anyBracketPair_close s.toList).mp
        (by rw [hb]; rfl)
    · intro _; trivial
  | none =>
    have hnbr : ¬ ContainsBracketForm anyBracketPair s.toList := by
      intro hc
      have h2 := (searchBracket_isSome_iff anyBracketPair anyBracketPair_close s.toList).mpr hc
      rw [hb] at h2
      exact absurd h2 (by simp)
    constructor
    · intro h
      right
      exact (searchPart_isSome_iff s.toList none).mp h
    · intro h
      rcases h with h | h
      · exact absurd h hnbr
      · exact (searchPart_isSome_iff s.toList none).mpr h

theorem extract_nm_rightmost_isSome_iff (s : String) :
    (extract_nm_rightmost s).isSome = true ↔ ContainsTokenAny s := by
  unfold extract_nm_rightmost ContainsTokenAny
  cases hfb : finditerBracket anyBracketPair s.toList with
  | cons nm rest =>
    have hbr : ContainsBracketForm anyBracketPair s.toList := by
      apply (searchBracket_isSome_iff anyBracketPair anyBracketPair_close s.toList).mp
      cases hsb : searchBracket anyBracketPair s.toList with
      | some v => rfl
      | none =>
        have h2 := (finditerBracket_eq_nil_iff anyBracketPair s.toList).mpr hsb
        rw [hfb] at h2
        exact absurd h2 (by simp)
    have hlast : ((nm :: rest).getLast?).isSome = true := by
      rw [List.getLast?_isSome]
      simp
    cases hl : (nm :: rest).getLast? with
    | none => rw [hl] at hlast; exact absurd hlast (by simp)
    | some v =>
      simp only [hl, Option.isSome_some]
      constructor
      · intro _; left; exact hbr
      · intro _; trivial
  | nil =>
    have hsb : searchBracket anyBracketPair s.toList = none :=
      (finditerBracket_eq_nil_iff anyBracketPair s.toList).mp hfb
    have hnbr : ¬ ContainsBracketForm anyBracketPair s.toList := by
      intro hc
      have h2 := (searchBracket_isSome_iff anyBracketPair anyBracketPair_close s.toList).mpr hc
      rw [hsb] at h2
      exact absurd h2 (by simp)
    simp only [List.getLast?_nil]
    cases hfp : finditerPart none s.toList with
    | cons nm2 rest2 =>
      have hpt : ContainsPartToken none s.toList := by
        apply (searchPart_isSome_iff s.toList none).mp
        cases hsp : searchPart none s.toList with
        | some v => rfl
        | none =>
          have h2 := (finditerPart_eq_nil_iff none s.toList).mpr hsp
          rw [hfp] at h2
          exact absurd h2 (by simp)
      have hlast : ((nm2 :: rest2).getLast?).isSome = true := by
        rw [List.getLast?_isSome]
        simp
      cases hl : (nm2 :: rest2).getLast? with
      | none => rw [hl] at hlast; exact absurd hlast (by simp)
      | some v =>
        simp only [hl, Option.isSome_some]
        constructor
        · intro _; right; exact hpt
        · intro _; trivial
    | nil =>
      have hsp : searchPart none s.toList = none :=
        (finditerPart_eq_nil_iff none s.toList).mp hfp
      have hnpt : ¬ ContainsPartToken none s.toList := by
        intro hc
        have h2 := (searchPart_isSome_iff s.toList none).mpr hc
        rw [hsp] at h2
        exact absurd h2 (by simp)
      simp only [List.getLast?_nil, Option.isSome_none]
      constructor
      · intro h; exact absurd h (by simp)
      · intro h
        rcases h with h | h
        · exact absurd h hnbr
        · exact absurd h hnpt

theorem group_with_picker_singles_aux (picker : String → Option (Nat × Nat)) :
    ∀ (rows : List NzbRow) (gs : List (GroupKey × List NzbRow)) (ss : List NzbRow),
      (rows.foldl (group_with_picker_step picker) (gs, ss)).2
        = ss ++ rows.filter (fun r => (picker (pyStrOrEmpty r.subject)).isNone) := by
  intro rows
  induction rows with
  | nil => intro gs ss; simp
  | cons r t ih =>
    intro gs ss
    simp only [List.foldl_cons, List.filter_cons]
    cases hp : picker (pyStrOrEmpty r.subject) with
    | none =>
      have hstep : group_with_picker_step picker (gs, ss) r = (gs, ss ++ [r]) := by
        simp [group_with_picker_step, hp]
      rw [hstep, ih]
      simp [hp]
    | some nm =>
      have hstep : group_with_picker_step picker (gs, ss) r
          = (addToGroups gs (normalize_subject_base (pyStrOrEmpty r.subject), nm.2,
              pyStrOrEmpty r.from_addr) r, ss) := by
        simp [group_with_picker_step, hp]
      rw [hstep, ih]
      simp [hp]

theorem option_isNone_eq_not_isSome (o : Option (Nat × Nat)) : o.isNone = !o.isSome := by
  cases o <;> rfl

theorem group_rows_auto_singles (rows : List NzbRow) :
    (group_rows_auto rows).2
      = rows.filter (fun r => (extract_nm_leftmost (pyStrOrEmpty r.subject)).isNone) := by
  have hL : (group_with_picker rows extract_nm_leftmost).2
      = rows.filter (fun r => (extract_nm_leftmost (pyStrOrEmpty r.subject)).isNone) := by
    unfold group_with_picker
    simpa using group_with_picker_singles_aux extract_nm_leftmost rows [] []
  have hR : (group_with_picker rows extract_nm_rightmost).2
      = rows.filter (fun r => (extract_nm_rightmost (pyStrOrEmpty r.subject)).isNone) := by
    unfold group_with_picker
    simpa using group_with_picker_singles_aux extract_nm_rightmost rows [] []
  have hsame : ∀ u : String,
      (extract_nm_rightmost u).isNone = (extract_nm_leftmost u).isNone := by
    intro u
    have hs : (extract_nm_rightmost u).isSome = (extract_nm_leftmost u).isSome :=
      Bool.eq_iff_iff.mpr
        ((extract_nm_rightmost_isSome_iff u).trans (extract_nm_leftmost_isSome_iff u).symm)
    rw [option_isNone_eq_not_isSome, option_isNone_eq_not_isSome, hs]
  simp only [group_rows_auto]
  split
  · rw [hR]
    apply List.filter_congr
    intro r _
    rw [hsame]
  · exact hL

/-- C5 (counterexample): the bracket pattern does not require the
brackets to pair up.  The subject "(1/2}" contains none of the exact
claimed forms (n/m), [n/m], \x7bn/m\x7d or "part n of m", yet
extract_nm_leftmost finds the token (1, 2) in it. -/
theorem extract_nm_accepts_mismatched_brackets :
    extract_nm_leftmost "(1/2\x7d" = some (1, 2) ∧ ¬ ContainsTokenStrict "(1/2\x7d" := by
  constructor
  · decide
  · intro h
    simp only [ContainsTokenStrict] at h
    rcases h with h | h
    · have h2 := (searchBracket_isSome_iff strictBracketPair strictBracketPair_close
        ("(1/2\x7d".toList)).mpr h
      exact absurd h2 (by decide)
    · have h2 := (searchPart_isSome_iff ("(1/2\x7d".toList) none).mpr h
      exact absurd h2 (by decide)

/-- C5 (amended): each extraction strategy finds a token exactly when the
subject contains a substring of the form "opening bracket, digits, slash,
digits, closing bracket" — the opening and closing brackets drawn
independently from ( [ \x7b and ) ] \x7d, with no pairing requirement —
or the phrase "part n of m" (case-insensitive, whitespace-separated,
delimited by word boundaries); and after grouping, the singles are
exactly the records whose subject contains no such token. -/
theorem extract_nm_token_iff :
    (∀ s : String, ((extract_nm_leftmost s).isSome = true ↔ ContainsTokenAny s)) ∧
    (∀ s : String, ((extract_nm_rightmost s).isSome = true ↔ ContainsTokenAny s)) ∧
    (∀ rows : List NzbRow, (group_rows_auto rows).2
      = rows.filter (fun r => (extract_nm_leftmost (pyStrOrEmpty r.subject)).isNone)) :=
  ⟨extract_nm_leftmost_isSome_iff, extract_nm_rightmost_isSome_iff, group_rows_auto_singles⟩
